import Mathlib

/-!
Verification of the two conflict-marker resolution routines of this repository.

* `src/resolve_core_conflicts.py` (the "Marker-Scan Filter"): splits the file
  content on `'\n'`, walks the lines with two boolean flags `in_head` and
  `in_remote`, drops marker lines and incoming-segment lines, and rejoins the
  kept lines with `'\n'`.  Embedded here as `processLine` / `scanFold` /
  `scanLines` / `resolveCoreConflicts`.

* `src/resolve_head.py` (the "Marker-Block Eraser"): applies
  `re.compile(r'<<<<<<< HEAD\n(.*?)\n=======\n.*?\n>>>>>>> [^\n]+', re.DOTALL)`
  and substitutes each match by its first capture group.  Embedded here as a
  specialised leftmost, lazy, backtracking matcher: `matchEnd` (the trailing
  `.*?\n>>>>>>> [^\n]+` part), `matchBlock` (the part of the pattern after
  `<<<<<<< HEAD\n`, returning the capture group and the text after the match)
  and `resolveGo` / `resolveHead` (the scan-and-substitute loop of `re.sub`).

Documents are modelled as `List Char`; lines as `'\n'`-free `List Char`.
-/

/-- The start-marker text `'<<<<<<< HEAD'` tested by
`line.startswith('<<<<<<< HEAD')` in `resolve_core_conflicts.py`. -/
def hdMark : List Char := "<<<<<<< HEAD".data

/-- The separator text `'======='` tested by `line.startswith('=======')`. -/
def sevenEq : List Char := "=======".data

/-- The end-marker text `'>>>>>>>'` tested by `line.startswith('>>>>>>>')`. -/
def sevenGt : List Char := ">>>>>>>".data

/-- The literal `'>>>>>>> '` (seven `>` and a space) of the regex in
`resolve_head.py`. -/
def gt8 : List Char := ">>>>>>> ".data

/-- The literal `'<<<<<<< HEAD\n'` that opens the regex of `resolve_head.py`. -/
def startPat : List Char := "<<<<<<< HEAD\n".data

/-- The literal `'\n=======\n'` in the middle of the regex of
`resolve_head.py`. -/
def sepPat : List Char := "\n=======\n".data

/-- The literal `'\n>>>>>>> '` that precedes `[^\n]+` in the regex of
`resolve_head.py`. -/
def endPat : List Char := "\n>>>>>>> ".data

theorem startPat_eq : startPat = hdMark ++ ['\n'] := by decide

theorem sepPat_eq : sepPat = '\n' :: (sevenEq ++ ['\n']) := by decide

theorem endPat_eq : endPat = '\n' :: gt8 := by decide

theorem gt8_eq : gt8 = sevenGt ++ [' '] := by decide

theorem startPat_length : startPat.length = 13 := by decide

theorem sepPat_length : sepPat.length = 9 := by decide

theorem endPat_length : endPat.length = 9 := by decide

theorem hdMark_noNl : ∀ c ∈ hdMark, c ≠ '\n' := by decide

theorem sevenEq_noNl : ∀ c ∈ sevenEq, c ≠ '\n' := by decide

theorem sevenGt_noNl : ∀ c ∈ sevenGt, c ≠ '\n' := by decide

theorem gt8_noNl : ∀ c ∈ gt8, c ≠ '\n' := by decide

/-- Python's `content.split('\n')`: always returns at least one (possibly
empty) piece; a trailing `'\n'` yields a trailing empty piece. -/
def splitNl : List Char → List (List Char)
  | [] => [[]]
  | c :: rest =>
    if c = '\n' then [] :: splitNl rest
    else
      match splitNl rest with
      | [] => [[c]]
      | l :: ls => (c :: l) :: ls

/-- Python's `'\n'.join(lines)`. -/
def joinNl : List (List Char) → List Char
  | [] => []
  | [l] => l
  | l :: ls => l ++ '\n' :: joinNl (ls)

/-- Each line followed by a `'\n'`: `joinNl` of a list that is known to be
followed by at least one further line. -/
def joinNlT : List (List Char) → List Char
  | [] => []
  | l :: ls => l ++ '\n' :: joinNlT ls

/-- One iteration of the line loop of `resolve_core_conflicts.py`: given the
current `in_head` / `in_remote` flags and the line, returns the updated flags
and the line to append to `new_lines` (or `none` when the line is dropped).
Mirrors the `if`/`elif` chain of the source. -/
def processLine (in_head in_remote : Bool) (line : List Char) :
    (Bool × Bool) × Option (List Char) :=
  if hdMark <+: line then ((true, in_remote), none)
  else if sevenEq <+: line then
    if in_head then ((false, true), none) else ((in_head, in_remote), some line)
  else if sevenGt <+: line then
    if in_remote then ((in_head, false), none) else ((in_head, in_remote), some line)
  else if in_remote then ((in_head, in_remote), none)
  else ((in_head, in_remote), some line)

/-- The full line loop of `resolve_core_conflicts.py`, returning the final
`(in_head, in_remote)` flags together with the accumulated `new_lines`. -/
def scanFold (in_head in_remote : Bool) : List (List Char) → (Bool × Bool) × List (List Char)
  | [] => ((in_head, in_remote), [])
  | l :: ls =>
    match processLine in_head in_remote l with
    | ((ih, ir), none) => scanFold ih ir ls
    | ((ih, ir), some out) =>
      ((scanFold ih ir ls).1, out :: (scanFold ih ir ls).2)

/-- The `new_lines` produced by the line loop. -/
def scanLines (in_head in_remote : Bool) (ls : List (List Char)) : List (List Char) :=
  (scanFold in_head in_remote ls).2

/-- The whole-document transformation of `resolve_core_conflicts.py`:
`'\n'.join` of the filtered `content.split('\n')`, with the loop started on
`in_head = in_remote = False`. -/
def resolveCoreConflicts (content : List Char) : List Char :=
  joinNl (scanLines false false (splitNl content))

/-- The part `.*?\n>>>>>>> [^\n]+` of the regex of `resolve_head.py`, matched
against `t` with Python's backtracking semantics: the lazy `.*?` tries the
closest `'\n>>>>>>> '` first and moves right only when the greedy `[^\n]+`
(at least one non-newline character) cannot match there.  Returns the text
remaining after the match, or `none` when no match exists. -/
def matchEnd : List Char → Option (List Char)
  | [] => none
  | c :: rest =>
    if endPat <+: (c :: rest) then
      match ((c :: rest).drop 9).takeWhile (fun ch => ch != '\n') with
      | [] => matchEnd rest
      | _ :: _ => some (((c :: rest).drop 9).dropWhile (fun ch => ch != '\n'))
    else matchEnd rest

/-- The part `(.*?)\n=======\n.*?\n>>>>>>> [^\n]+` of the regex, matched
against `t`: the lazy capture group stops at the closest `'\n=======\n'`
from which the rest of the pattern can match, backtracking otherwise.
Returns the capture group together with the text after the whole match. -/
def matchBlock : List Char → Option (List Char × List Char)
  | [] => none
  | c :: rest =>
    if sepPat <+: (c :: rest) then
      match matchEnd ((c :: rest).drop 9) with
      | some leftover => some ([], leftover)
      | none => (matchBlock rest).map (fun p => (c :: p.1, p.2))
    else (matchBlock rest).map (fun p => (c :: p.1, p.2))

theorem matchEnd_length : ∀ t l, matchEnd t = some l → l.length < t.length := by
  intro t
  induction t with
  | nil => intro l h; simp [matchEnd] at h
  | cons c rest ih =>
    intro l h
    rw [matchEnd] at h
    by_cases hp : endPat <+: (c :: rest)
    · rw [if_pos hp] at h
      rcases htw : ((c :: rest).drop 9).takeWhile (fun ch => ch != '\n') with _ | ⟨x, xs⟩
      · rw [htw] at h
        exact Nat.lt_trans (ih l h) (by simp)
      · rw [htw] at h
        have hd : l = ((c :: rest).drop 9).dropWhile (fun ch => ch != '\n') :=
          (Option.some.inj h).symm
        subst hd
        have hlen : (((c :: rest).drop 9).takeWhile (fun ch => ch != '\n')).length +
            (((c :: rest).drop 9).dropWhile (fun ch => ch != '\n')).length =
            ((c :: rest).drop 9).length := by
          rw [← List.length_append, List.takeWhile_append_dropWhile]
        have hdroplen : (((c : Char) :: rest).drop 9).length = (c :: rest).length - 9 := by
          simp
        rw [htw] at hlen
        simp only [List.length_cons] at hdroplen ⊢
        omega
    · rw [if_neg hp] at h
      exact Nat.lt_trans (ih l h) (by simp)

theorem matchBlock_length : ∀ t p, matchBlock t = some p → p.2.length < t.length := by
  intro t
  induction t with
  | nil => intro p h; simp [matchBlock] at h
  | cons c rest ih =>
    intro p h
    rw [matchBlock] at h
    by_cases hp : sepPat <+: (c :: rest)
    · rw [if_pos hp] at h
      rcases hme : matchEnd ((c :: rest).drop 9) with _ | lft
      · rw [hme, Option.map_eq_some'] at h
        rcases h with ⟨q, hq, rfl⟩
        exact Nat.lt_trans (ih q hq) (by simp)
      · rw [hme] at h
        have := matchEnd_length _ _ hme
        have hdl : (((c : Char) :: rest).drop 9).length = (c :: rest).length - 9 := by simp
        rcases (Option.some.inj h).symm with rfl
        simp only [List.length_cons] at *
        omega
    · rw [if_neg hp, Option.map_eq_some'] at h
      rcases h with ⟨q, hq, rfl⟩
      exact Nat.lt_trans (ih q hq) (by simp)

/-- The scan-and-substitute loop of `re.sub` in `resolve_head.py`, with
explicit fuel (one unit per scanned character; any fuel above the length of
the text gives the same result, see `resolveGo_fuel`).  At each position: if
the literal `'<<<<<<< HEAD\n'` and then the rest of the pattern match, emit
the capture group and continue after the match; otherwise keep the character
and try the next position. -/
def resolveGo : Nat → List Char → List Char
  | 0, _ => []
  | _ + 1, [] => []
  | fuel + 1, c :: rest =>
    if startPat <+: (c :: rest) then
      match matchBlock ((c :: rest).drop 13) with
      | some p => p.1 ++ resolveGo fuel p.2
      | none => c :: resolveGo fuel rest
    else c :: resolveGo fuel rest

/-- The whole-document transformation of `resolve_head.py`:
`pattern.sub(r'\1', content)`. -/
def resolveHead (content : List Char) : List Char :=
  resolveGo (content.length + 1) content

theorem resolveGo_fuel : ∀ n (t : List Char), t.length ≤ n →
    ∀ f₁ f₂, t.length < f₁ → t.length < f₂ → resolveGo f₁ t = resolveGo f₂ t := by
  intro n
  induction n with
  | zero =>
    intro t ht f₁ f₂ h₁ h₂
    have : t = [] := List.length_eq_zero.mp (Nat.le_zero.mp ht)
    subst this
    rcases f₁ with _ | a
    · omega
    rcases f₂ with _ | b
    · omega
    simp [resolveGo]
  | succ n ihn =>
    intro t ht f₁ f₂ h₁ h₂
    rcases t with _ | ⟨c, rest⟩
    · rcases f₁ with _ | a
      · omega
      rcases f₂ with _ | b
      · omega
      simp [resolveGo]
    · rcases f₁ with _ | a
      · simp at h₁
      rcases f₂ with _ | b
      · simp at h₂
      simp only [List.length_cons] at ht h₁ h₂
      rw [resolveGo, resolveGo]
      by_cases hp : startPat <+: (c :: rest)
      · rw [if_pos hp, if_pos hp]
        rcases hmb : matchBlock ((c :: rest).drop 13) with _ | p
        · have : resolveGo a rest = resolveGo b rest :=
            ihn rest (by omega) a b (by omega) (by omega)
          rw [this]
        · have hlen := matchBlock_length _ _ hmb
          have hdl : (((c : Char) :: rest).drop 13).length = (c :: rest).length - 13 := by
            simp
          simp only [List.length_cons] at hdl
          have : resolveGo a p.2 = resolveGo b p.2 :=
            ihn p.2 (by omega) a b (by omega) (by omega)
          show p.1 ++ resolveGo a p.2 = p.1 ++ resolveGo b p.2
          rw [this]
      · rw [if_neg hp, if_neg hp]
        have : resolveGo a rest = resolveGo b rest :=
          ihn rest (by omega) a b (by omega) (by omega)
        rw [this]

theorem resolveHead_nil : resolveHead [] = [] := rfl

/-- Skip step of the substitution scan: at a position where the pattern's
opening literal does not match, the character is kept unchanged. -/
theorem resolveHead_skip {c : Char} {u : List Char} (h : ¬ startPat <+: (c :: u)) :
    resolveHead (c :: u) = c :: resolveHead u := by
  show resolveGo (u.length + 1 + 1) (c :: u) = c :: resolveHead u
  rw [resolveGo, if_neg h]
  rfl

/-- Failure step: the opening literal matches but the rest of the pattern
does not; `re.sub` moves on by one character. -/
theorem resolveHead_fail {c : Char} {u : List Char} (h : startPat <+: (c :: u))
    (hmb : matchBlock ((c :: u).drop 13) = none) :
    resolveHead (c :: u) = c :: resolveHead u := by
  show resolveGo (u.length + 1 + 1) (c :: u) = c :: resolveHead u
  rw [resolveGo, if_pos h, hmb]
  rfl

/-- Success step: the whole pattern matches here; the match is replaced by the
capture group and scanning resumes after the match. -/
theorem resolveHead_match {c : Char} {u : List Char} {p : List Char × List Char}
    (h : startPat <+: (c :: u)) (hmb : matchBlock ((c :: u).drop 13) = some p) :
    resolveHead (c :: u) = p.1 ++ resolveHead p.2 := by
  show resolveGo (u.length + 1 + 1) (c :: u) = p.1 ++ resolveHead p.2
  rw [resolveGo, if_pos h, hmb]
  have hlen := matchBlock_length _ _ hmb
  have hdl : (((c : Char) :: u).drop 13).length = (c :: u).length - 13 := by simp
  simp only [List.length_cons] at hdl
  have : resolveGo (u.length + 1) p.2 = resolveGo (p.2.length + 1) p.2 :=
    resolveGo_fuel p.2.length p.2 (Nat.le_refl _) _ _ (by omega) (by omega)
  show p.1 ++ resolveGo (u.length + 1) p.2 = p.1 ++ resolveHead p.2
  rw [this]
  rfl

theorem pref_app (l t : List Char) : l <+: l ++ t := ⟨t, rfl⟩

theorem pref_refl (l : List Char) : l <+: l := ⟨[], by simp⟩

theorem pref_trans {a b c : List Char} (h₁ : a <+: b) (h₂ : b <+: c) : a <+: c := by
  rcases h₁ with ⟨u, rfl⟩
  rcases h₂ with ⟨v, rfl⟩
  exact ⟨u ++ v, by simp⟩

theorem pref_of_app {a b c : List Char} (h : a ++ b <+: c) : a <+: c :=
  pref_trans (pref_app a b) h

theorem cons_pref_cons {a b : Char} {u v : List Char} :
    (a :: u) <+: (b :: v) ↔ a = b ∧ u <+: v := by
  constructor
  · rintro ⟨w, hw⟩
    injection hw with h1 h2
    exact ⟨h1, w, h2⟩
  · rintro ⟨rfl, w, rfl⟩
    exact ⟨w, rfl⟩

theorem suff_cons (l : List Char) (c : Char) : l <:+ c :: l := ⟨[c], rfl⟩

theorem suff_trans {a b c : List Char} (h₁ : a <:+ b) (h₂ : b <:+ c) : a <:+ c := by
  rcases h₁ with ⟨u, rfl⟩
  rcases h₂ with ⟨v, rfl⟩
  exact ⟨v ++ u, by simp⟩

theorem takeWhile_noNl {m : List Char} (hm : ∀ c ∈ m, c ≠ '\n') (t : List Char) :
    (m ++ '\n' :: t).takeWhile (fun ch => ch != '\n') = m := by
  induction m with
  | nil => simp [List.takeWhile]
  | cons c m' ih =>
    have hc : c ≠ '\n' := hm c (by simp)
    have hm' : ∀ c ∈ m', c ≠ '\n' := fun x hx => hm x (by simp [hx])
    simp only [List.cons_append, List.takeWhile_cons]
    rw [if_pos (by simpa using hc)]
    rw [ih hm']

theorem dropWhile_noNl {m : List Char} (hm : ∀ c ∈ m, c ≠ '\n') (t : List Char) :
    (m ++ '\n' :: t).dropWhile (fun ch => ch != '\n') = '\n' :: t := by
  induction m with
  | nil => simp [List.dropWhile]
  | cons c m' ih =>
    have hc : c ≠ '\n' := hm c (by simp)
    have hm' : ∀ c ∈ m', c ≠ '\n' := fun x hx => hm x (by simp [hx])
    simp only [List.cons_append, List.dropWhile_cons]
    rw [if_pos (by simpa using hc)]
    exact ih hm'

theorem takeWhile_noNl_all {m : List Char} (hm : ∀ c ∈ m, c ≠ '\n') :
    m.takeWhile (fun ch => ch != '\n') = m := by
  induction m with
  | nil => rfl
  | cons c m' ih =>
    have hc : c ≠ '\n' := hm c (by simp)
    have hm' : ∀ c ∈ m', c ≠ '\n' := fun x hx => hm x (by simp [hx])
    simp only [List.takeWhile_cons]
    rw [if_pos (by simpa using hc), ih hm']

theorem dropWhile_noNl_all {m : List Char} (hm : ∀ c ∈ m, c ≠ '\n') :
    m.dropWhile (fun ch => ch != '\n') = [] := by
  induction m with
  | nil => rfl
  | cons c m' ih =>
    have hc : c ≠ '\n' := hm c (by simp)
    have hm' : ∀ c ∈ m', c ≠ '\n' := fun x hx => hm x (by simp [hx])
    simp only [List.dropWhile_cons]
    rw [if_pos (by simpa using hc)]
    exact ih hm'

/-- A pattern with no newline can only match within the line before a
newline. -/
theorem noNl_pat_pref {p : List Char} (hp : ∀ c ∈ p, c ≠ '\n') (m t : List Char) :
    p <+: (m ++ '\n' :: t) ↔ p <+: m := by
  constructor
  · rintro ⟨w, hw⟩
    rcases List.append_eq_append_iff.mp hw.symm with ⟨a, ha1, ha2⟩ | ⟨a, ha1, ha2⟩
    · rcases a with _ | ⟨x, a'⟩
      · rw [List.append_nil] at ha1
        exact ha1 ▸ pref_refl m
      · exfalso
        have hx : x = '\n' := by
          have := congrArg (fun l => l.head?) ha2
          simpa using this.symm
        have : x ∈ p := ha1 ▸ List.mem_append_right m (by simp)
        exact hp x this (hx)
    · exact ⟨a, ha1.symm⟩
  · rintro ⟨w, rfl⟩
    exact ⟨w ++ '\n' :: t, by simp⟩

/-- A pattern of the shape `u ++ '\n' :: v` (with `u` newline-free) matches at
the start of a line `m ++ '\n' :: t` exactly when `m` is the whole of `u` and
`v` goes on to match `t`. -/
theorem nl_pat_pref {u m : List Char} (hu : ∀ c ∈ u, c ≠ '\n')
    (hm : ∀ c ∈ m, c ≠ '\n') (v t : List Char) :
    (u ++ '\n' :: v) <+: (m ++ '\n' :: t) ↔ m = u ∧ v <+: t := by
  constructor
  · rintro ⟨w, hw⟩
    simp only [List.append_assoc, List.cons_append] at hw
    have hmu : m = u := by
      have h1 := takeWhile_noNl hm t
      have h2 := takeWhile_noNl hu (v ++ w)
      rw [hw] at h2
      rw [h1] at h2
      exact h2
    subst hmu
    have hcc := List.append_cancel_left hw
    injection hcc with _ h2
    exact ⟨rfl, w, h2⟩
  · rintro ⟨rfl, w, rfl⟩
    exact ⟨w, by simp⟩

theorem splitNl_ne_nil (t : List Char) : splitNl t ≠ [] := by
  induction t with
  | nil => simp [splitNl]
  | cons c rest ih =>
    rw [splitNl]
    by_cases hc : c = '\n'
    · simp [hc]
    · rw [if_neg hc]
      rcases h : splitNl rest with _ | ⟨l, ls⟩
      · simp
      · simp

theorem joinNl_cons_ne {l : List Char} {ls : List (List Char)} (h : ls ≠ []) :
    joinNl (l :: ls) = l ++ '\n' :: joinNl ls := by
  rcases ls with _ | ⟨m, ms⟩
  · exact absurd rfl h
  · rfl

theorem joinNl_splitNl (t : List Char) : joinNl (splitNl t) = t := by
  induction t with
  | nil => rfl
  | cons c rest ih =>
    rw [splitNl]
    by_cases hc : c = '\n'
    · rw [if_pos hc, joinNl_cons_ne (splitNl_ne_nil rest), ih, hc]
      rfl
    · rw [if_neg hc]
      rcases h : splitNl rest with _ | ⟨l, ls⟩
      · exact absurd h (splitNl_ne_nil rest)
      · rcases ls with _ | ⟨m, ms⟩
        · show joinNl [c :: l] = c :: rest
          rw [h] at ih
          show c :: l = c :: rest
          rw [show l = joinNl [l] from rfl, ih]
        · rw [joinNl_cons_ne (by simp)]
          rw [h, joinNl_cons_ne (by simp)] at ih
          rw [List.cons_append, ih]

theorem splitNl_noNl (t : List Char) : ∀ l ∈ splitNl t, ∀ c ∈ l, c ≠ '\n' := by
  induction t with
  | nil => intro l hl; simp [splitNl] at hl; simp [hl]
  | cons c rest ih =>
    intro l hl
    rw [splitNl] at hl
    by_cases hc : c = '\n'
    · rw [if_pos hc] at hl
      rcases List.mem_cons.mp hl with rfl | h
      · simp
      · exact ih l h
    · rw [if_neg hc] at hl
      rcases h : splitNl rest with _ | ⟨m, ms⟩
      · exact absurd h (splitNl_ne_nil rest)
      · rw [h] at hl
        rcases List.mem_cons.mp hl with rfl | hmem
        · intro x hx
          rcases List.mem_cons.mp hx with rfl | hx'
          · exact hc
          · exact ih m (h ▸ List.mem_cons_self m ms) x hx'
        · exact ih l (h ▸ List.mem_cons_of_mem m hmem)

theorem splitNl_noNl_single {l : List Char} (h : ∀ c ∈ l, c ≠ '\n') :
    splitNl l = [l] := by
  induction l with
  | nil => rfl
  | cons c rest ih =>
    have hc : c ≠ '\n' := h c (by simp)
    have hrest : ∀ x ∈ rest, x ≠ '\n' := fun x hx => h x (by simp [hx])
    rw [splitNl, if_neg hc, ih hrest]

theorem splitNl_line {l : List Char} (h : ∀ c ∈ l, c ≠ '\n') (t : List Char) :
    splitNl (l ++ '\n' :: t) = l :: splitNl t := by
  induction l with
  | nil => simp [splitNl]
  | cons c rest ih =>
    have hc : c ≠ '\n' := h c (by simp)
    have hrest : ∀ x ∈ rest, x ≠ '\n' := fun x hx => h x (by simp [hx])
    rw [List.cons_append, splitNl, if_neg hc, ih hrest]

theorem splitNl_joinNl {ls : List (List Char)} (h : ∀ l ∈ ls, ∀ c ∈ l, c ≠ '\n')
    (hne : ls ≠ []) : splitNl (joinNl ls) = ls := by
  induction ls with
  | nil => exact absurd rfl hne
  | cons l ms ih =>
    rcases ms with _ | ⟨m, ms'⟩
    · exact splitNl_noNl_single (h l (by simp))
    · rw [joinNl_cons_ne (by simp)]
      rw [splitNl_line (h l (by simp))]
      rw [ih (fun x hx => h x (by simp [hx])) (by simp)]

theorem joinNlT_eq {ls : List (List Char)} (h : ls ≠ []) :
    joinNlT ls = joinNl ls ++ ['\n'] := by
  induction ls with
  | nil => exact absurd rfl h
  | cons l ms ih =>
    rcases ms with _ | ⟨m, ms'⟩
    · rfl
    · rw [joinNlT, joinNl_cons_ne (by simp), ih (by simp)]
      simp

theorem joinNl_append {a b : List (List Char)} (hb : b ≠ []) :
    joinNl (a ++ b) = joinNlT a ++ joinNl b := by
  induction a with
  | nil => rfl
  | cons l a' ih =>
    have hne : a' ++ b ≠ [] := by
      rcases b with _ | _
      · exact absurd rfl hb
      · simp
    rw [List.cons_append, joinNl_cons_ne hne, joinNlT, ih]
    simp

theorem suff_refl (l : List Char) : l <:+ l := ⟨[], rfl⟩

theorem not_pref_of_head {p t : List Char} {a b : Char} (hp : p.head? = some a)
    (ht : t.head? = some b) (hne : a ≠ b) : ¬ p <+: t := by
  rintro ⟨w, hw⟩
  rcases p with _ | ⟨x, p'⟩
  · simp at hp
  · rcases t with _ | ⟨y, t'⟩
    · simp at ht
    · simp only [List.head?_cons, Option.some.injEq] at hp ht
      injection hw with h1 _
      exact hne (hp ▸ ht ▸ h1.symm ▸ rfl)

theorem not_pref_nil {p : List Char} (hp : p ≠ []) : ¬ p <+: ([] : List Char) := by
  rintro ⟨w, hw⟩
  exact hp (List.append_eq_nil.mp hw).1

theorem noNl_no_pat {p t : List Char} (hp : '\n' ∈ p) (ht : ∀ c ∈ t, c ≠ '\n') :
    ¬ p <+: t := by
  rintro ⟨w, hw⟩
  exact ht '\n' (hw ▸ List.mem_append_left w hp) rfl

/-- Marker-free characters stay unchanged: the opening literal of the pattern
contains a newline, so it cannot match inside a newline-free text. -/
theorem resolveHead_noNl {l : List Char} (h : ∀ c ∈ l, c ≠ '\n') :
    resolveHead l = l := by
  induction l with
  | nil => rfl
  | cons c l' ih =>
    have hnp : ¬ startPat <+: (c :: l') :=
      noNl_no_pat (by decide) h
    rw [resolveHead_skip hnp, ih fun x hx => h x (by simp [hx])]

/-- The substitution scan passes over a whole line (and its newline) whenever
the line does not end with the start-marker text. -/
theorem resolveHead_line {l : List Char} (hl : ∀ c ∈ l, c ≠ '\n')
    (hsuf : ¬ hdMark <:+ l) (tail : List Char) :
    resolveHead (l ++ '\n' :: tail) = l ++ '\n' :: resolveHead tail := by
  induction l with
  | nil =>
    simp only [List.nil_append]
    exact resolveHead_skip (not_pref_of_head (a := '<') (b := '\n') (by decide) rfl (by decide))
  | cons c l' ih =>
    have hl' : ∀ c ∈ l', c ≠ '\n' := fun x hx => hl x (by simp [hx])
    have hsuf' : ¬ hdMark <:+ l' := fun hs => hsuf (suff_trans hs (suff_cons l' c))
    have hnp : ¬ startPat <+: ((c :: l') ++ '\n' :: tail) := by
      rw [startPat_eq]
      intro hp
      have := (nl_pat_pref hdMark_noNl hl [] tail).mp (by simpa using hp)
      exact hsuf (this.1 ▸ suff_refl _)
    rw [List.cons_append]
    rw [resolveHead_skip (by simpa using hnp)]
    rw [ih hl' hsuf']
    rfl

/-- The substitution scan passes over any run of newline-terminated lines none
of which ends with the start-marker text. -/
theorem resolveHead_passT {ls : List (List Char)}
    (h : ∀ l ∈ ls, (∀ c ∈ l, c ≠ '\n') ∧ ¬ hdMark <:+ l) (tail : List Char) :
    resolveHead (joinNlT ls ++ tail) = joinNlT ls ++ resolveHead tail := by
  induction ls with
  | nil => simp [joinNlT]
  | cons l ls' ih =>
    have h1 := h l (by simp)
    rw [joinNlT, List.append_assoc, List.cons_append]
    rw [resolveHead_line h1.1 h1.2]
    rw [ih fun x hx => h x (by simp [hx])]
    simp

/-- A joined document whose lines are newline-free and never end with the
start-marker text is left unchanged by the substitution. -/
theorem resolveHead_joinNl_id {ls : List (List Char)}
    (h : ∀ l ∈ ls, (∀ c ∈ l, c ≠ '\n') ∧ ¬ hdMark <:+ l) :
    resolveHead (joinNl ls) = joinNl ls := by
  induction ls with
  | nil => rfl
  | cons l ls' ih =>
    rcases ls' with _ | ⟨m, ms⟩
    · exact resolveHead_noNl (h l (by simp)).1
    · rw [joinNl_cons_ne (by simp)]
      rw [resolveHead_line (h l (by simp)).1 (h l (by simp)).2]
      rw [ih fun x hx => h x (by simp [hx])]

theorem matchBlock_none {t : List Char} (h : ∀ i, ¬ sepPat <+: t.drop i) :
    matchBlock t = none := by
  induction t with
  | nil => rfl
  | cons c rest ih =>
    rw [matchBlock, if_neg (by simpa using h 0)]
    rw [ih fun i => by simpa [List.drop_succ_cons] using h (i + 1)]
    rfl

/-- If the middle literal `'\n=======\n'` occurs nowhere in the text, the
substitution of `resolve_head.py` is the identity. -/
theorem resolveHead_noSep {t : List Char} (h : ∀ i, ¬ sepPat <+: t.drop i) :
    resolveHead t = t := by
  induction t with
  | nil => rfl
  | cons c rest ih =>
    have hrest : ∀ i, ¬ sepPat <+: rest.drop i := fun i => by
      simpa [List.drop_succ_cons] using h (i + 1)
    by_cases hp : startPat <+: (c :: rest)
    · have hmb : matchBlock ((c :: rest).drop 13) = none := by
        apply matchBlock_none
        intro i
        rw [List.drop_drop]
        exact h (13 + i)
      rw [resolveHead_fail hp hmb, ih hrest]
    · rw [resolveHead_skip hp, ih hrest]

/-- In a joined document none of whose lines starts with the separator text,
the literal `'\n=======\n'` occurs nowhere. -/
theorem joinNl_noSepOcc {ls : List (List Char)}
    (h : ∀ l ∈ ls, (∀ c ∈ l, c ≠ '\n') ∧ ¬ sevenEq <+: l) :
    ∀ i, ¬ sepPat <+: (joinNl ls).drop i := by
  induction ls with
  | nil =>
    intro i
    simp only [joinNl, List.drop_nil]
    exact not_pref_nil (by decide)
  | cons l ls' ih =>
    intro i
    rcases ls' with _ | ⟨m, ms⟩
    · have hjl : joinNl [l] = l := rfl
      rw [hjl]
      have : ∀ c ∈ l.drop i, c ≠ '\n' := fun x hx =>
        (h l (by simp)).1 x (List.drop_subset i _ hx)
      exact noNl_no_pat (by decide) this
    · rw [joinNl_cons_ne (by simp)]
      rw [List.drop_append_eq_append_drop]
      by_cases hc : i ≤ l.length
      · rw [Nat.sub_eq_zero_of_le hc, List.drop_zero]
        rcases hdrop : l.drop i with _ | ⟨x, xs⟩
        · rw [List.nil_append]
          intro hp
          rw [sepPat_eq] at hp
          have h2 := (cons_pref_cons.mp hp).2
          rcases ms with _ | ⟨m2, ms2⟩
          · have : sevenEq <+: m := pref_of_app h2
            exact (h m (by simp)).2 this
          · rw [joinNl_cons_ne (by simp)] at h2
            have := (nl_pat_pref sevenEq_noNl (h m (by simp)).1 [] _).mp (by simpa using h2)
            exact (h m (by simp)).2 (this.1 ▸ pref_refl _)
        · have hx : x ≠ '\n' := (h l (by simp)).1 x (List.drop_subset i l (by rw [hdrop]; simp))
          exact not_pref_of_head (by decide) rfl (fun he => hx he.symm)
      · have hlen : l.length ≤ i := Nat.le_of_lt (Nat.lt_of_not_le hc)
        rw [List.drop_of_length_le hlen, List.nil_append]
        have hsub : i - l.length = (i - l.length - 1) + 1 := by omega
        rw [hsub, List.drop_succ_cons]
        exact ih (fun x hx => h x (by simp [hx])) _

/-- Inside a newline-free stretch the lazy capture group just accumulates
characters: the middle literal starts with a newline. -/
theorem matchBlock_skip_line {m : List Char} (hm : ∀ c ∈ m, c ≠ '\n')
    (tail : List Char) :
    matchBlock (m ++ tail) = (matchBlock tail).map (fun p => (m ++ p.1, p.2)) := by
  induction m with
  | nil =>
    simp only [List.nil_append]
    rcases matchBlock tail with _ | p
    · rfl
    · rfl
  | cons c m' ih =>
    have hc : c ≠ '\n' := hm c (by simp)
    rw [List.cons_append, matchBlock]
    have hng : ¬ sepPat <+: (c :: (m' ++ tail)) :=
      not_pref_of_head (a := '\n') (b := c) (by decide) rfl (fun he => hc he.symm)
    rw [if_neg hng]
    rw [ih fun x hx => hm x (by simp [hx])]
    rcases matchBlock tail with _ | p
    · rfl
    · rfl

/-- At a newline not followed by the separator line, the capture group
accumulates the newline and the scan goes on. -/
theorem matchBlock_skip_nl {tail : List Char}
    (h : ¬ (sevenEq ++ ['\n']) <+: tail) :
    matchBlock ('\n' :: tail) = (matchBlock tail).map (fun p => ('\n' :: p.1, p.2)) := by
  rw [matchBlock]
  rw [if_neg (fun hp => h (by rw [sepPat_eq] at hp; exact (cons_pref_cons.mp hp).2))]

/-- At the middle literal itself, the capture group closes provided the rest
of the pattern matches. -/
theorem matchBlock_here {W lft : List Char} (h : matchEnd W = some lft) :
    matchBlock ('\n' :: (sevenEq ++ '\n' :: W)) = some ([], lft) := by
  rw [matchBlock]
  rw [if_pos ⟨W, by rw [sepPat_eq]; simp⟩]
  have hdrop : (('\n' : Char) :: (sevenEq ++ '\n' :: W)).drop 9 = W := by
    rw [show ('\n' : Char) :: (sevenEq ++ '\n' :: W) = sepPat ++ W by rw [sepPat_eq]; simp]
    rw [show (9 : Nat) = sepPat.length by decide]
    exact List.drop_left sepPat W
  rw [hdrop, h]

/-- Inside a newline-free stretch the inner lazy `.*?` just advances: the end
literal starts with a newline. -/
theorem matchEnd_skip_line {m : List Char} (hm : ∀ c ∈ m, c ≠ '\n')
    (tail : List Char) : matchEnd (m ++ tail) = matchEnd tail := by
  induction m with
  | nil => rfl
  | cons c m' ih =>
    have hc : c ≠ '\n' := hm c (by simp)
    rw [List.cons_append, matchEnd]
    have hng : ¬ endPat <+: (c :: (m' ++ tail)) :=
      not_pref_of_head (a := '\n') (b := c) (by decide) rfl (fun he => hc he.symm)
    rw [if_neg hng]
    exact ih fun x hx => hm x (by simp [hx])

/-- At a newline not followed by `'>>>>>>> '`, the inner lazy `.*?`
advances. -/
theorem matchEnd_skip_nl {tail : List Char} (h : ¬ gt8 <+: tail) :
    matchEnd ('\n' :: tail) = matchEnd tail := by
  rw [matchEnd]
  rw [if_neg (fun hp => h (by rw [endPat_eq] at hp; exact (cons_pref_cons.mp hp).2))]

/-- At the end literal followed by a nonempty newline-free identifier, the
match succeeds and consumes the identifier greedily. -/
theorem matchEnd_here {id TL : List Char} (hid : id ≠ [])
    (hnn : ∀ c ∈ id, c ≠ '\n') (hTL : TL = [] ∨ ∃ tl, TL = '\n' :: tl) :
    matchEnd ('\n' :: (gt8 ++ (id ++ TL))) = some TL := by
  rw [matchEnd]
  rw [if_pos ⟨id ++ TL, by rw [endPat_eq]; simp⟩]
  have hdrop : (('\n' : Char) :: (gt8 ++ (id ++ TL))).drop 9 = id ++ TL := by
    rw [show ('\n' : Char) :: (gt8 ++ (id ++ TL)) = endPat ++ (id ++ TL) by rw [endPat_eq]; simp]
    rw [show (9 : Nat) = endPat.length by decide]
    exact List.drop_left endPat (id ++ TL)
  rw [hdrop]
  rcases hTL with rfl | ⟨tl, rfl⟩
  · rw [List.append_nil]
    rw [takeWhile_noNl_all hnn]
    rcases id with _ | ⟨x, xs⟩
    · exact absurd rfl hid
    · rw [dropWhile_noNl_all hnn]
  · rw [takeWhile_noNl hnn tl]
    rcases id with _ | ⟨x, xs⟩
    · exact absurd rfl hid
    · rw [dropWhile_noNl hnn tl]

/-- The inner lazy `.*?` runs over the incoming-segment lines (none of which
starts with the end-marker text) and matches exactly at the final end-marker
line. -/
theorem matchEnd_joinNl {inc : List (List Char)} (hne : inc ≠ [])
    (h : ∀ l ∈ inc, (∀ c ∈ l, c ≠ '\n') ∧ ¬ sevenGt <+: l)
    {id TL : List Char} (hid : id ≠ []) (hnn : ∀ c ∈ id, c ≠ '\n')
    (hTL : TL = [] ∨ ∃ tl, TL = '\n' :: tl) :
    matchEnd (joinNl inc ++ ('\n' :: (gt8 ++ (id ++ TL)))) = some TL := by
  induction inc with
  | nil => exact absurd rfl hne
  | cons l inc' ih =>
    rcases inc' with _ | ⟨m, ms⟩
    · have hjl : joinNl [l] = l := rfl
      rw [hjl, matchEnd_skip_line (h l (by simp)).1]
      exact matchEnd_here hid hnn hTL
    · rw [joinNl_cons_ne (by simp), List.append_assoc, List.cons_append]
      rw [matchEnd_skip_line (h l (by simp)).1]
      have hnogt : ¬ gt8 <+: (joinNl (m :: ms) ++ ('\n' :: (gt8 ++ (id ++ TL)))) := by
        intro hp
        have hmnl := (h m (by simp)).1
        have hgt : gt8 <+: m := by
          rcases ms with _ | ⟨m2, ms2⟩
          · have hjm : joinNl [m] = m := rfl
            rw [hjm] at hp
            exact (noNl_pat_pref gt8_noNl m _).mp hp
          · rw [joinNl_cons_ne (by simp), List.append_assoc, List.cons_append] at hp
            exact (noNl_pat_pref gt8_noNl m _).mp hp
        exact (h m (by simp)).2 (pref_trans (by decide) hgt)
      rw [matchEnd_skip_nl hnogt]
      exact ih (by simp) (fun x hx => h x (by simp [hx]))

/-- The lazy capture group runs over the local-segment lines (none of which
starts with the separator text), closes at the separator line, and the rest
of the pattern is matched against what follows. -/
theorem matchBlock_joinNl {loc : List (List Char)} (hne : loc ≠ [])
    (h : ∀ l ∈ loc, (∀ c ∈ l, c ≠ '\n') ∧ ¬ sevenEq <+: l)
    {W lft : List Char} (hW : matchEnd W = some lft) :
    matchBlock (joinNl loc ++ ('\n' :: (sevenEq ++ '\n' :: W))) = some (joinNl loc, lft) := by
  induction loc with
  | nil => exact absurd rfl hne
  | cons l loc' ih =>
    rcases loc' with _ | ⟨m, ms⟩
    · have hjl : joinNl [l] = l := rfl
      rw [hjl, matchBlock_skip_line (h l (by simp)).1]
      rw [matchBlock_here hW]
      simp
    · rw [joinNl_cons_ne (by simp), List.append_assoc, List.cons_append]
      rw [matchBlock_skip_line (h l (by simp)).1]
      have hnosep : ¬ (sevenEq ++ ['\n']) <+:
          (joinNl (m :: ms) ++ ('\n' :: (sevenEq ++ '\n' :: W))) := by
        intro hp
        have hmnl := (h m (by simp)).1
        have hseq : m = sevenEq := by
          rcases ms with _ | ⟨m2, ms2⟩
          · have hjm : joinNl [m] = m := rfl
            rw [hjm] at hp
            exact ((nl_pat_pref sevenEq_noNl hmnl [] _).mp (by simpa using hp)).1
          · rw [joinNl_cons_ne (by simp), List.append_assoc, List.cons_append] at hp
            exact ((nl_pat_pref sevenEq_noNl hmnl [] _).mp (by simpa using hp)).1
        exact (h m (by simp)).2 (hseq ▸ pref_refl _)
      rw [matchBlock_skip_nl hnosep]
      rw [ih (by simp) (fun x hx => h x (by simp [hx]))]
      rfl

theorem joinNl_singleton (l : List Char) : joinNl [l] = l := rfl

theorem resolveHead_match' {t : List Char} {p : List Char × List Char}
    (h : startPat <+: t) (hmb : matchBlock (t.drop 13) = some p) :
    resolveHead t = p.1 ++ resolveHead p.2 := by
  rcases t with _ | ⟨c, u⟩
  · exact absurd h (not_pref_nil (by decide))
  · exact resolveHead_match h hmb

/-- Core of the single-block computation for `resolve_head.py`: with the
document decomposed into its raw character-level shape, the whole block is
replaced by the joined local segment, and scanning resumes on the text `TL`
after the end-marker line. -/
theorem resolveHead_block_core (pre loc inc : List (List Char)) (id TL : List Char)
    (hpre : ∀ l ∈ pre, (∀ c ∈ l, c ≠ '\n') ∧ ¬ hdMark <:+ l)
    (hloc : ∀ l ∈ loc, (∀ c ∈ l, c ≠ '\n') ∧ ¬ sevenEq <+: l) (hlocne : loc ≠ [])
    (hinc : ∀ l ∈ inc, (∀ c ∈ l, c ≠ '\n') ∧ ¬ sevenGt <+: l) (hincne : inc ≠ [])
    (hid : id ≠ []) (hidnl : ∀ c ∈ id, c ≠ '\n')
    (hTL : TL = [] ∨ ∃ tl, TL = '\n' :: tl) :
    resolveHead (joinNlT pre ++ (startPat ++ (joinNl loc ++ ('\n' ::
        (sevenEq ++ '\n' :: (joinNl inc ++ ('\n' :: (gt8 ++ (id ++ TL)))))))))
      = joinNlT pre ++ (joinNl loc ++ resolveHead TL) := by
  rw [resolveHead_passT hpre]
  have hW : matchEnd (joinNl inc ++ ('\n' :: (gt8 ++ (id ++ TL)))) = some TL :=
    matchEnd_joinNl hincne hinc hid hidnl hTL
  have hMB : matchBlock (joinNl loc ++ ('\n' ::
      (sevenEq ++ '\n' :: (joinNl inc ++ ('\n' :: (gt8 ++ (id ++ TL))))))) =
      some (joinNl loc, TL) :=
    matchBlock_joinNl hlocne hloc hW
  have hdrop : (startPat ++ (joinNl loc ++ ('\n' ::
      (sevenEq ++ '\n' :: (joinNl inc ++ ('\n' :: (gt8 ++ (id ++ TL)))))))).drop 13 =
      joinNl loc ++ ('\n' :: (sevenEq ++ '\n' :: (joinNl inc ++ ('\n' :: (gt8 ++ (id ++ TL)))))) := by
    rw [show (13 : Nat) = startPat.length by decide]
    exact List.drop_left _ _
  rw [resolveHead_match' (pref_app _ _) (by rw [hdrop]; exact hMB)]

/-- The Marker-Block Eraser on a document consisting of clean leading lines, a
well-formed conflict block, and arbitrary following lines: the block collapses
to its local segment and the substitution scan continues after the end-marker
line. -/
theorem resolveHead_block (pre loc inc : List (List Char)) (id : List Char)
    (rest : List (List Char))
    (hpre : ∀ l ∈ pre, (∀ c ∈ l, c ≠ '\n') ∧ ¬ hdMark <:+ l)
    (hloc : ∀ l ∈ loc, (∀ c ∈ l, c ≠ '\n') ∧ ¬ sevenEq <+: l) (hlocne : loc ≠ [])
    (hinc : ∀ l ∈ inc, (∀ c ∈ l, c ≠ '\n') ∧ ¬ sevenGt <+: l) (hincne : inc ≠ [])
    (hid : id ≠ []) (hidnl : ∀ c ∈ id, c ≠ '\n') :
    resolveHead (joinNl (pre ++ hdMark :: (loc ++ sevenEq :: (inc ++ (gt8 ++ id) :: rest))))
      = joinNlT pre ++ (joinNl loc ++
        (match rest with
         | [] => []
         | _ :: _ => '\n' :: resolveHead (joinNl rest))) := by
  rcases rest with _ | ⟨r, rs⟩
  · have hdoc : joinNl (pre ++ hdMark :: (loc ++ sevenEq :: (inc ++ [gt8 ++ id])))
        = joinNlT pre ++ (startPat ++ (joinNl loc ++ ('\n' ::
          (sevenEq ++ '\n' :: (joinNl inc ++ ('\n' :: (gt8 ++ (id ++ ([] : List Char))))))))) := by
      rw [joinNl_append (by simp), joinNl_cons_ne (by simp), joinNl_append (by simp),
        joinNl_cons_ne (by simp), joinNl_append (by simp), joinNlT_eq hlocne,
        joinNlT_eq hincne, startPat_eq]
      simp [joinNl_singleton, List.append_assoc]
    rw [hdoc]
    rw [resolveHead_block_core pre loc inc id [] hpre hloc hlocne hinc hincne hid hidnl
      (Or.inl rfl)]
    rw [resolveHead_nil]
  · have hdoc : joinNl (pre ++ hdMark :: (loc ++ sevenEq :: (inc ++ (gt8 ++ id) :: r :: rs)))
        = joinNlT pre ++ (startPat ++ (joinNl loc ++ ('\n' ::
          (sevenEq ++ '\n' :: (joinNl inc ++ ('\n' :: (gt8 ++ (id ++ ('\n' :: joinNl (r :: rs)))))))))) := by
      rw [joinNl_append (by simp), joinNl_cons_ne (by simp), joinNl_append (by simp),
        joinNl_cons_ne (by simp), joinNl_append (by simp), joinNlT_eq hlocne,
        joinNlT_eq hincne, @joinNl_cons_ne (gt8 ++ id) (r :: rs) (by simp),
        startPat_eq]
      simp [List.append_assoc]
    rw [hdoc]
    rw [resolveHead_block_core pre loc inc id ('\n' :: joinNl (r :: rs)) hpre hloc hlocne
      hinc hincne hid hidnl (Or.inr ⟨joinNl (r :: rs), rfl⟩)]
    rw [resolveHead_skip (not_pref_of_head (a := '<') (b := '\n') (by decide) rfl (by decide))]

theorem not_hd_pref_gtline (id : List Char) : ¬ hdMark <+: (gt8 ++ id) := by
  rw [show gt8 = '>' :: (">>>>>> ".data) by decide, List.cons_append]
  exact not_pref_of_head (a := '<') (b := '>') (by decide) rfl (by decide)

theorem not_eq_pref_gtline (id : List Char) : ¬ sevenEq <+: (gt8 ++ id) := by
  rw [show gt8 = '>' :: (">>>>>> ".data) by decide, List.cons_append]
  exact not_pref_of_head (a := '=') (b := '>') (by decide) rfl (by decide)

theorem gt_pref_gtline (id : List Char) : sevenGt <+: (gt8 ++ id) :=
  pref_trans (by decide) (pref_app gt8 id)

/-- A line matching none of the three `startswith` tests of
`resolve_core_conflicts.py`. -/
abbrev plainLine (l : List Char) : Prop :=
  ¬ hdMark <+: l ∧ ¬ sevenEq <+: l ∧ ¬ sevenGt <+: l

theorem processLine_plain_keep {ih : Bool} {l : List Char} (h : plainLine l) :
    processLine ih false l = ((ih, false), some l) := by
  rw [processLine, if_neg h.1, if_neg h.2.1, if_neg h.2.2]
  rfl

theorem processLine_plain_drop {ih : Bool} {l : List Char} (h : plainLine l) :
    processLine ih true l = ((ih, true), none) := by
  rw [processLine, if_neg h.1, if_neg h.2.1, if_neg h.2.2]
  rfl

theorem processLine_hd {ih ir : Bool} {l : List Char} (h : hdMark <+: l) :
    processLine ih ir l = ((true, ir), none) := by
  rw [processLine, if_pos h]

theorem processLine_sep_head {ir : Bool} {l : List Char} (h1 : ¬ hdMark <+: l)
    (h2 : sevenEq <+: l) : processLine true ir l = ((false, true), none) := by
  rw [processLine, if_neg h1, if_pos h2]
  rfl

theorem processLine_sep_emit {ir : Bool} {l : List Char} (h1 : ¬ hdMark <+: l)
    (h2 : sevenEq <+: l) : processLine false ir l = ((false, ir), some l) := by
  rw [processLine, if_neg h1, if_pos h2]
  rfl

theorem processLine_end_drop {ih : Bool} {l : List Char} (h1 : ¬ hdMark <+: l)
    (h2 : ¬ sevenEq <+: l) (h3 : sevenGt <+: l) :
    processLine ih true l = ((ih, false), none) := by
  rw [processLine, if_neg h1, if_neg h2, if_pos h3]
  rfl

theorem processLine_end_emit {ih : Bool} {l : List Char} (h1 : ¬ hdMark <+: l)
    (h2 : ¬ sevenEq <+: l) (h3 : sevenGt <+: l) :
    processLine ih false l = ((ih, false), some l) := by
  rw [processLine, if_neg h1, if_neg h2, if_pos h3]
  rfl

theorem scanFold_cons_none {ih ir ih' ir' : Bool} {l : List Char} {ls : List (List Char)}
    (h : processLine ih ir l = ((ih', ir'), none)) :
    scanFold ih ir (l :: ls) = scanFold ih' ir' ls := by
  rw [scanFold, h]

theorem scanFold_cons_some {ih ir ih' ir' : Bool} {l out : List Char} {ls : List (List Char)}
    (h : processLine ih ir l = ((ih', ir'), some out)) :
    scanFold ih ir (l :: ls) = ((scanFold ih' ir' ls).1, out :: (scanFold ih' ir' ls).2) := by
  rw [scanFold, h]

/-- Lines matching no marker test pass through unchanged while
`in_remote = False`, whatever `in_head` is. -/
theorem scanFold_pass {ns : List (List Char)} (h : ∀ l ∈ ns, plainLine l)
    (ih : Bool) (rest : List (List Char)) :
    scanFold ih false (ns ++ rest) =
      ((scanFold ih false rest).1, ns ++ (scanFold ih false rest).2) := by
  induction ns with
  | nil => simp
  | cons l ns' ihh =>
    rw [List.cons_append,
      scanFold_cons_some (processLine_plain_keep (h l (by simp))),
      ihh fun x hx => h x (by simp [hx])]
    simp

/-- Lines matching no marker test are dropped while `in_remote = True`. -/
theorem scanFold_drop {ns : List (List Char)} (h : ∀ l ∈ ns, plainLine l)
    (ih : Bool) (rest : List (List Char)) :
    scanFold ih true (ns ++ rest) = scanFold ih true rest := by
  induction ns with
  | nil => simp
  | cons l ns' ihh =>
    rw [List.cons_append,
      scanFold_cons_none (processLine_plain_drop (h l (by simp))),
      ihh fun x hx => h x (by simp [hx])]

theorem scanFold_all {ns : List (List Char)} (h : ∀ l ∈ ns, plainLine l) (ih : Bool) :
    scanFold ih false ns = ((ih, false), ns) := by
  induction ns with
  | nil => rfl
  | cons l ns' ihh =>
    rw [scanFold_cons_some (processLine_plain_keep (h l (by simp))),
      ihh fun x hx => h x (by simp [hx])]

theorem scanFold_drop_all {ns : List (List Char)} (h : ∀ l ∈ ns, plainLine l) (ih : Bool) :
    scanFold ih true ns = ((ih, true), []) := by
  induction ns with
  | nil => rfl
  | cons l ns' ihh =>
    rw [scanFold_cons_none (processLine_plain_drop (h l (by simp))),
      ihh fun x hx => h x (by simp [hx])]

/-- The Marker-Scan Filter line loop on a document consisting of clean lines
around one well-formed conflict block: the three marker lines and the
incoming-segment lines are dropped, everything else is kept, and the loop
returns to the outside state. -/
theorem scanFold_block (pre loc inc post : List (List Char)) (id : List Char)
    (hpre : ∀ l ∈ pre, plainLine l) (hloc : ∀ l ∈ loc, plainLine l)
    (hinc : ∀ l ∈ inc, plainLine l) (hpost : ∀ l ∈ post, plainLine l) :
    scanFold false false (pre ++ hdMark :: (loc ++ sevenEq :: (inc ++ (gt8 ++ id) :: post)))
      = ((false, false), pre ++ (loc ++ post)) := by
  rw [scanFold_pass hpre,
    scanFold_cons_none (processLine_hd (pref_refl hdMark)),
    scanFold_pass hloc,
    scanFold_cons_none (processLine_sep_head (by decide) (pref_refl sevenEq)),
    scanFold_drop hinc,
    scanFold_cons_none (processLine_end_drop (not_hd_pref_gtline id)
      (not_eq_pref_gtline id) (gt_pref_gtline id)),
    scanFold_all hpost]

/-- A line that is newline-free, matches none of the three `startswith` tests
of the filter, and does not end with the start-marker text (so it cannot make
the eraser's opening literal appear mid-document). -/
abbrev cleanLine (l : List Char) : Prop :=
  (∀ c ∈ l, c ≠ '\n') ∧ ¬ hdMark <+: l ∧ ¬ sevenEq <+: l ∧ ¬ sevenGt <+: l ∧
    ¬ hdMark <:+ l

theorem cleanLine_plain {l : List Char} (h : cleanLine l) : plainLine l :=
  ⟨h.2.1, h.2.2.1, h.2.2.2.1⟩

theorem block_lines_noNl {pre loc inc post : List (List Char)} {id : List Char}
    (hpre : ∀ l ∈ pre, cleanLine l) (hloc : ∀ l ∈ loc, cleanLine l)
    (hinc : ∀ l ∈ inc, cleanLine l) (hpost : ∀ l ∈ post, cleanLine l)
    (hidnl : ∀ c ∈ id, c ≠ '\n') :
    ∀ l ∈ pre ++ hdMark :: (loc ++ sevenEq :: (inc ++ (gt8 ++ id) :: post)),
      ∀ c ∈ l, c ≠ '\n' := by
  intro l hl
  simp only [List.mem_append, List.mem_cons] at hl
  rcases hl with h | rfl | h | rfl | h | rfl | h
  · exact (hpre l h).1
  · exact hdMark_noNl
  · exact (hloc l h).1
  · exact sevenEq_noNl
  · exact (hinc l h).1
  · intro c hc
    rcases List.mem_append.mp hc with h | h
    · exact gt8_noNl c h
    · exact hidnl c h
  · exact (hpost l h).1

/-- The Marker-Scan Filter on a whole document with one well-formed conflict
block surrounded by clean lines. -/
theorem resolveCore_block (pre loc inc post : List (List Char)) (id : List Char)
    (hpre : ∀ l ∈ pre, cleanLine l) (hloc : ∀ l ∈ loc, cleanLine l)
    (hinc : ∀ l ∈ inc, cleanLine l) (hpost : ∀ l ∈ post, cleanLine l)
    (hidnl : ∀ c ∈ id, c ≠ '\n') :
    resolveCoreConflicts (joinNl (pre ++ hdMark :: (loc ++ sevenEq :: (inc ++ (gt8 ++ id) :: post))))
      = joinNl (pre ++ (loc ++ post)) := by
  rw [resolveCoreConflicts]
  rw [splitNl_joinNl (block_lines_noNl hpre hloc hinc hpost hidnl) (by simp)]
  rw [scanLines]
  rw [scanFold_block pre loc inc post id
    (fun l hl => cleanLine_plain (hpre l hl)) (fun l hl => cleanLine_plain (hloc l hl))
    (fun l hl => cleanLine_plain (hinc l hl)) (fun l hl => cleanLine_plain (hpost l hl))]

/-- Claim C1: on every document containing exactly one well-formed conflict
block (clean lines, then the start-marker line, a nonempty local segment, the
separator line, a nonempty incoming segment, the end-marker line with a
nonempty identifier, then clean lines), the Marker-Scan Filter of
`resolve_core_conflicts.py` and the Marker-Block Eraser of `resolve_head.py`
produce the identical output: the document with only the local segment's
lines in place of the block. -/
theorem one_block_filter_eq_eraser
    (pre loc inc post : List (List Char)) (id : List Char)
    (hpre : ∀ l ∈ pre, cleanLine l) (hloc : ∀ l ∈ loc, cleanLine l)
    (hinc : ∀ l ∈ inc, cleanLine l) (hpost : ∀ l ∈ post, cleanLine l)
    (hlocne : loc ≠ []) (hincne : inc ≠ [])
    (hid : id ≠ []) (hidnl : ∀ c ∈ id, c ≠ '\n') :
    resolveCoreConflicts (joinNl (pre ++ hdMark :: (loc ++ sevenEq :: (inc ++ (gt8 ++ id) :: post))))
      = resolveHead (joinNl (pre ++ hdMark :: (loc ++ sevenEq :: (inc ++ (gt8 ++ id) :: post))))
    ∧ resolveHead (joinNl (pre ++ hdMark :: (loc ++ sevenEq :: (inc ++ (gt8 ++ id) :: post))))
      = joinNl (pre ++ (loc ++ post)) := by
  have hE : resolveHead (joinNl (pre ++ hdMark :: (loc ++ sevenEq :: (inc ++ (gt8 ++ id) :: post))))
      = joinNl (pre ++ (loc ++ post)) := by
    rw [resolveHead_block pre loc inc id post
      (fun l hl => ⟨(hpre l hl).1, (hpre l hl).2.2.2.2⟩)
      (fun l hl => ⟨(hloc l hl).1, (hloc l hl).2.2.1⟩) hlocne
      (fun l hl => ⟨(hinc l hl).1, (hinc l hl).2.2.2.1⟩) hincne
      hid hidnl]
    rcases post with _ | ⟨p, ps⟩
    · simp only [List.append_nil]
      rw [joinNl_append hlocne]
    · rw [resolveHead_joinNl_id (fun l hl => ⟨(hpost l hl).1, (hpost l hl).2.2.2.2⟩)]
      rw [joinNl_append (a := pre) (b := loc ++ p :: ps) (by simp)]
      rw [joinNl_append (a := loc) (b := p :: ps) (by simp)]
      rw [joinNlT_eq hlocne]
      simp
  have hF := resolveCore_block pre loc inc post id hpre hloc hinc hpost hidnl
  exact ⟨hF.trans hE.symm, hE⟩

theorem one_block_filter_eq_eraser_witness :
    resolveCoreConflicts ("x\n<<<<<<< HEAD\nkeep\n=======\ndrop\n>>>>>>> abc123\ny".data)
      = resolveHead ("x\n<<<<<<< HEAD\nkeep\n=======\ndrop\n>>>>>>> abc123\ny".data)
    ∧ resolveHead ("x\n<<<<<<< HEAD\nkeep\n=======\ndrop\n>>>>>>> abc123\ny".data)
      = "x\nkeep\ny".data := by
  have h := one_block_filter_eq_eraser ["x".data] ["keep".data] ["drop".data] ["y".data]
    ("abc123".data) (by decide) (by decide) (by decide) (by decide)
    (by decide) (by decide) (by decide) (by decide)
  have hdoc : joinNl (["x".data] ++ hdMark :: (["keep".data] ++ sevenEq ::
      (["drop".data] ++ (gt8 ++ "abc123".data) :: ["y".data])))
      = "x\n<<<<<<< HEAD\nkeep\n=======\ndrop\n>>>>>>> abc123\ny".data := by decide
  have hout : joinNl (["x".data] ++ (["keep".data] ++ ["y".data])) = "x\nkeep\ny".data := by
    decide
  rw [hdoc, hout] at h
  exact h

/-- Without any line passing the start-marker test, the line loop stays in the
outside state and emits every line unchanged (separator-looking and
end-marker-looking lines included). -/
theorem scanFold_id {ls : List (List Char)} (h : ∀ l ∈ ls, ¬ hdMark <+: l) :
    scanFold false false ls = ((false, false), ls) := by
  induction ls with
  | nil => rfl
  | cons l ls' ihh =>
    have h1 : ¬ hdMark <+: l := h l (by simp)
    have hpl : processLine false false l = ((false, false), some l) := by
      by_cases h2 : sevenEq <+: l
      · exact processLine_sep_emit h1 h2
      · by_cases h3 : sevenGt <+: l
        · exact processLine_end_emit h1 h2 h3
        · exact processLine_plain_keep ⟨h1, h2, h3⟩
    rw [scanFold_cons_some hpl, ihh fun x hx => h x (by simp [hx])]

/-- Claim C2: a document with no start marker anywhere — lines beginning with
`'======='` or `'>>>>>>>'` outside any conflict block are allowed — is
returned unchanged by both routines. -/
theorem zero_blocks_identity (content : List Char)
    (h : ∀ l ∈ splitNl content, ¬ hdMark <+: l ∧ ¬ hdMark <:+ l) :
    resolveCoreConflicts content = content ∧ resolveHead content = content := by
  constructor
  · rw [resolveCoreConflicts, scanLines, scanFold_id fun l hl => (h l hl).1]
    exact joinNl_splitNl content
  · have hid := @resolveHead_joinNl_id (splitNl content)
      (fun l hl => ⟨splitNl_noNl content l hl, (h l hl).2⟩)
    rwa [joinNl_splitNl] at hid

theorem zero_blocks_identity_witness :
    resolveCoreConflicts ("a\n=======\nb\n>>>>>>> stray\nc".data)
        = "a\n=======\nb\n>>>>>>> stray\nc".data
    ∧ resolveHead ("a\n=======\nb\n>>>>>>> stray\nc".data)
        = "a\n=======\nb\n>>>>>>> stray\nc".data :=
  zero_blocks_identity ("a\n=======\nb\n>>>>>>> stray\nc".data) (by decide)

/-- Claim C4: the concrete Marker-Scan Filter scenario from the design
document: unrelated lines and the local segment pass through, the three
marker lines and the incoming line are dropped. -/
theorem scan_concrete_scenario :
    scanLines false false ["a".data, "<<<<<<< HEAD".data, "b".data, "=======".data,
        "c".data, ">>>>>>> branch1".data, "d".data] = ["a".data, "b".data, "d".data]
    ∧ resolveCoreConflicts ("a\n<<<<<<< HEAD\nb\n=======\nc\n>>>>>>> branch1\nd".data)
        = "a\nb\nd".data :=
  ⟨by decide, by decide⟩

/-- Claim C5: a document none of whose lines passes any of the three marker
tests is a fixed point of both routines; in particular each routine is
idempotent on its own marker-free output. -/
theorem no_marker_lines_identity (content : List Char)
    (h : ∀ l ∈ splitNl content, plainLine l) :
    resolveCoreConflicts content = content ∧ resolveHead content = content := by
  constructor
  · rw [resolveCoreConflicts, scanLines, scanFold_id fun l hl => (h l hl).1]
    exact joinNl_splitNl content
  · have hocc := @joinNl_noSepOcc (splitNl content)
      (fun l hl => ⟨splitNl_noNl content l hl, (h l hl).2.1⟩)
    rw [joinNl_splitNl] at hocc
    exact resolveHead_noSep hocc

theorem no_marker_lines_identity_witness :
    resolveCoreConflicts ("hello\nworld".data) = "hello\nworld".data
    ∧ resolveHead ("hello\nworld".data) = "hello\nworld".data :=
  no_marker_lines_identity ("hello\nworld".data) (by decide)

/-- Claim C6: the Marker-Block Eraser's pattern only matches complete
start/separator/end triples: a document with no separator line at all — in
particular one with a dangling start marker — is left byte-for-byte
unchanged. -/
theorem no_separator_eraser_identity (content : List Char)
    (h : ∀ l ∈ splitNl content, ¬ sevenEq <+: l) :
    resolveHead content = content := by
  have hocc := @joinNl_noSepOcc (splitNl content)
    (fun l hl => ⟨splitNl_noNl content l hl, h l hl⟩)
  rw [joinNl_splitNl] at hocc
  exact resolveHead_noSep hocc

theorem no_separator_eraser_identity_witness :
    resolveHead ("<<<<<<< HEAD\nfoo\nbar".data) = "<<<<<<< HEAD\nfoo\nbar".data :=
  no_separator_eraser_identity ("<<<<<<< HEAD\nfoo\nbar".data) (by decide)

/-- Claim C7: a document whose conflict block is never terminated leaves the
loop of `resolve_core_conflicts.py` in `IN_INCOMING` (after a separator with
no end marker: remaining lines silently dropped) or `IN_LOCAL` (start marker
with no separator: remaining lines kept); the loop is a total function, ends
without any error, and the terminal state is never validated. -/
theorem unterminated_scan_silent (pre loc tail : List (List Char))
    (hpre : ∀ l ∈ pre, plainLine l) (hloc : ∀ l ∈ loc, plainLine l)
    (htail : ∀ l ∈ tail, plainLine l) :
    scanFold false false (pre ++ hdMark :: (loc ++ sevenEq :: tail))
        = ((false, true), pre ++ loc)
    ∧ scanFold false false (pre ++ hdMark :: tail) = ((true, false), pre ++ tail) := by
  constructor
  · rw [scanFold_pass hpre, scanFold_cons_none (processLine_hd (pref_refl hdMark)),
      scanFold_pass hloc,
      scanFold_cons_none (processLine_sep_head (by decide) (pref_refl sevenEq)),
      scanFold_drop_all htail]
    simp
  · rw [scanFold_pass hpre, scanFold_cons_none (processLine_hd (pref_refl hdMark)),
      scanFold_all htail]

theorem unterminated_scan_silent_witness :
    scanFold false false (["a".data] ++ hdMark :: (["b".data] ++ sevenEq :: ["c".data, "d".data]))
        = ((false, true), ["a".data] ++ ["b".data])
    ∧ scanFold false false (["a".data] ++ hdMark :: ["c".data, "d".data])
        = ((true, false), ["a".data] ++ ["c".data, "d".data]) :=
  unterminated_scan_silent ["a".data] ["b".data] ["c".data, "d".data]
    (by decide) (by decide) (by decide)

theorem processLine_emit {ih ir : Bool} {st : Bool × Bool} {out l : List Char}
    (h : processLine ih ir l = (st, some out)) : out = l ∧ ¬ hdMark <+: l := by
  by_cases h1 : hdMark <+: l
  · rw [processLine_hd h1] at h
    simp at h
  · refine ⟨?_, h1⟩
    rw [processLine, if_neg h1] at h
    split at h
    · split at h
      · simp at h
      · simp only [Prod.mk.injEq, Option.some.injEq] at h
        exact h.2.symm
    · split at h
      · split at h
        · simp at h
        · simp only [Prod.mk.injEq, Option.some.injEq] at h
          exact h.2.symm
      · split at h
        · simp at h
        · simp only [Prod.mk.injEq, Option.some.injEq] at h
          exact h.2.symm

/-- Claim C8: whatever the state of the loop, no line of the Marker-Scan
Filter's output starts with the start-marker text: such lines are dropped
unconditionally. -/
theorem scan_output_no_start_marker (ih ir : Bool) (ls : List (List Char))
    (l : List Char) (hl : l ∈ scanLines ih ir ls) : ¬ hdMark <+: l := by
  induction ls generalizing ih ir with
  | nil => simp [scanLines, scanFold] at hl
  | cons x ls' ihh =>
    rcases hpl : processLine ih ir x with ⟨⟨ih', ir'⟩, _ | o⟩
    · rw [scanLines, scanFold_cons_none hpl] at hl
      exact ihh ih' ir' hl
    · rw [scanLines, scanFold_cons_some hpl] at hl
      rcases List.mem_cons.mp hl with rfl | hmem
      · have he := processLine_emit hpl
        rw [he.1]
        exact he.2
      · exact ihh ih' ir' hmem

theorem scan_output_no_start_marker_witness : ¬ hdMark <+: ("x".data) :=
  scan_output_no_start_marker false false ["x".data] ("x".data) (by decide)

/-- Claim C9: a separator-prefixed line read in state `IN_INCOMING`
(`in_head = False`, `in_remote = True`) is emitted unchanged — the
`else: new_lines.append(line)` branch does not test `in_remote` — and the
state stays `IN_INCOMING`, even though all non-marker lines are dropped in
that state. -/
theorem incoming_separator_emitted (l : List Char) (ls : List (List Char))
    (h : sevenEq <+: l) :
    processLine false true l = ((false, true), some l)
    ∧ scanLines false true (l :: ls) = l :: scanLines false true ls := by
  have h1 : ¬ hdMark <+: l := by
    rcases h with ⟨w, rfl⟩
    rw [show sevenEq = '=' :: ("======".data) by decide, List.cons_append]
    exact not_pref_of_head (a := '<') (b := '=') (by decide) rfl (by decide)
  have hp := @processLine_sep_emit true _ h1 h
  refine ⟨hp, ?_⟩
  rw [scanLines, scanFold_cons_some hp]
  rfl

theorem incoming_separator_emitted_witness :
    processLine false true ("=======".data) = ((false, true), some ("=======".data))
    ∧ scanLines false true ["=======".data, "q".data] =
        "=======".data :: scanLines false true ["q".data] :=
  incoming_separator_emitted ("=======".data) ["q".data] (by decide)

/-- The line sequence of a document made of consecutive well-formed conflict
blocks — each preceded by its own clean lines — followed by trailing lines. -/
def blocksLines :
    List (List (List Char) × List (List Char) × List (List Char) × List Char) →
    List (List Char) → List (List Char)
  | [], post => post
  | (pre, loc, inc, id) :: bs, post =>
    pre ++ hdMark :: (loc ++ sevenEq :: (inc ++ (gt8 ++ id) :: blocksLines bs post))

/-- The expected resolution: every block keeps only its own local segment. -/
def blocksResolved :
    List (List (List Char) × List (List Char) × List (List Char) × List Char) →
    List (List Char) → List (List Char)
  | [], post => post
  | (pre, loc, _, _) :: bs, post => pre ++ (loc ++ blocksResolved bs post)

/-- Well-formedness of one conflict block: clean leading lines, clean nonempty
local and incoming segments, nonempty newline-free end-marker identifier. -/
abbrev blockOK
    (b : List (List Char) × List (List Char) × List (List Char) × List Char) : Prop :=
  (∀ l ∈ b.1, cleanLine l) ∧ (∀ l ∈ b.2.1, cleanLine l) ∧ b.2.1 ≠ [] ∧
  (∀ l ∈ b.2.2.1, cleanLine l) ∧ b.2.2.1 ≠ [] ∧ b.2.2.2 ≠ [] ∧
  ∀ c ∈ b.2.2.2, c ≠ '\n'

theorem blocksLines_nil_iff
    {bs : List (List (List Char) × List (List Char) × List (List Char) × List Char)}
    {post : List (List Char)} : blocksLines bs post = [] ↔ bs = [] ∧ post = [] := by
  rcases bs with _ | ⟨⟨pre, loc, inc, id⟩, bs'⟩
  · simp [blocksLines]
  · simp [blocksLines]

/-- Claim C3: the Marker-Block Eraser's matching is non-overlapping,
leftmost-first and lazy: on a document with `N` well-formed, non-nested
conflict blocks it resolves each block independently to its own local
segment, with no cross-block leakage. -/
theorem eraser_resolves_all_blocks
    (bs : List (List (List Char) × List (List Char) × List (List Char) × List Char))
    (post : List (List Char)) (hbs : ∀ b ∈ bs, blockOK b)
    (hpost : ∀ l ∈ post, cleanLine l) :
    resolveHead (joinNl (blocksLines bs post)) = joinNl (blocksResolved bs post) := by
  induction bs with
  | nil =>
    exact resolveHead_joinNl_id fun l hl => ⟨(hpost l hl).1, (hpost l hl).2.2.2.2⟩
  | cons b bs' ihh =>
    obtain ⟨pre, loc, inc, id⟩ := b
    have hb := hbs _ (List.mem_cons_self _ _)
    have hlocne : loc ≠ [] := hb.2.2.1
    rw [blocksLines]
    rw [resolveHead_block pre loc inc id (blocksLines bs' post)
      (fun l hl => ⟨(hb.1 l hl).1, (hb.1 l hl).2.2.2.2⟩)
      (fun l hl => ⟨(hb.2.1 l hl).1, (hb.2.1 l hl).2.2.1⟩) hlocne
      (fun l hl => ⟨(hb.2.2.2.1 l hl).1, (hb.2.2.2.1 l hl).2.2.2.1⟩) hb.2.2.2.2.1
      hb.2.2.2.2.2.1 hb.2.2.2.2.2.2]
    rw [ihh fun x hx => hbs x (List.mem_cons_of_mem _ hx)]
    rcases hbl : blocksLines bs' post with _ | ⟨r, rs⟩
    · obtain ⟨rfl, rfl⟩ := blocksLines_nil_iff.mp hbl
      show joinNlT pre ++ (joinNl loc ++ joinNl (blocksResolved [] [])) =
        joinNl (blocksResolved ((pre, loc, inc, id) :: []) [])
      rw [show blocksResolved ([] : List _) ([] : List (List Char)) = [] from rfl]
      show joinNlT pre ++ (joinNl loc ++ []) = joinNl (pre ++ (loc ++ []))
      simp only [List.append_nil]
      rw [joinNl_append hlocne]
    · rcases hrr : blocksResolved bs' post with _ | ⟨q, qs⟩
      · exfalso
        rcases bs' with _ | ⟨⟨pre', loc', inc', id'⟩, bs''⟩
        · rw [show blocksResolved ([] : List _) post = post from rfl] at hrr
          subst hrr
          simp [blocksLines] at hbl
        · rw [blocksResolved] at hrr
          rcases List.append_eq_nil.mp hrr with ⟨_, h2⟩
          exact (hbs (pre', loc', inc', id') (by simp)).2.2.1 (List.append_eq_nil.mp h2).1
      · rw [show blocksResolved ((pre, loc, inc, id) :: bs') post
            = pre ++ (loc ++ blocksResolved bs' post) from rfl]
        rw [hrr]
        show joinNlT pre ++ (joinNl loc ++ ('\n' :: joinNl (q :: qs))) =
          joinNl (pre ++ (loc ++ q :: qs))
        rw [joinNl_append (a := pre) (b := loc ++ q :: qs) (by simp)]
        rw [joinNl_append (a := loc) (b := q :: qs) (by simp)]
        rw [joinNlT_eq hlocne]
        simp

theorem eraser_resolves_all_blocks_witness :
    resolveHead
        ("<<<<<<< HEAD\nL1\n=======\nR1\n>>>>>>> h1\nmid\n<<<<<<< HEAD\nL2\n=======\nR2\n>>>>>>> h2".data)
      = "L1\nmid\nL2".data := by
  have h := eraser_resolves_all_blocks
    [([], ["L1".data], ["R1".data], "h1".data),
     (["mid".data], ["L2".data], ["R2".data], "h2".data)] []
    (by decide) (by decide)
  have hdoc : joinNl (blocksLines
      [(([] : List (List Char)), ["L1".data], ["R1".data], "h1".data),
       (["mid".data], ["L2".data], ["R2".data], "h2".data)] [])
      = "<<<<<<< HEAD\nL1\n=======\nR1\n>>>>>>> h1\nmid\n<<<<<<< HEAD\nL2\n=======\nR2\n>>>>>>> h2".data := by
    decide
  have hout : joinNl (blocksResolved
      [(([] : List (List Char)), ["L1".data], ["R1".data], "h1".data),
       (["mid".data], ["L2".data], ["R2".data], "h2".data)] []) = "L1\nmid\nL2".data := by
    decide
  rw [hdoc, hout] at h
  exact h


theorem matchBlock_noNl_all {m : List Char} (hm : ∀ c ∈ m, c ≠ '\n') :
    matchBlock m = none := by
  induction m with
  | nil => rfl
  | cons c rest ih =>
    have hc : c ≠ '\n' := hm c (by simp)
    have hng : ¬ sepPat <+: (c :: rest) :=
      not_pref_of_head (a := '\n') (b := c) (by decide) rfl (fun he => hc he.symm)
    rw [matchBlock, if_neg hng, ih fun x hx => hm x (by simp [hx])]
    rfl

theorem matchEnd_noNl_all {m : List Char} (hm : ∀ c ∈ m, c ≠ '\n') :
    matchEnd m = none := by
  induction m with
  | nil => rfl
  | cons c rest ih =>
    have hc : c ≠ '\n' := hm c (by simp)
    have hng : ¬ endPat <+: (c :: rest) :=
      not_pref_of_head (a := '\n') (b := c) (by decide) rfl (fun he => hc he.symm)
    rw [matchEnd, if_neg hng]
    exact ih fun x hx => hm x (by simp [hx])

theorem not_sepTail_pref_joinNl {ls : List (List Char)}
    (h : ∀ l ∈ ls, (∀ c ∈ l, c ≠ '\n') ∧ ¬ sevenEq <+: l) :
    ¬ (sevenEq ++ ['\n']) <+: joinNl ls := by
  rcases ls with _ | ⟨m, ms⟩
  · exact not_pref_nil (by decide)
  · rcases ms with _ | ⟨m2, ms2⟩
    · intro hp
      exact (h m (by simp)).2 (pref_of_app hp)
    · rw [joinNl_cons_ne (by simp)]
      intro hp
      have heq := (nl_pat_pref sevenEq_noNl (h m (by simp)).1 [] _).mp (by simpa using hp)
      exact (h m (by simp)).2 (heq.1 ▸ pref_refl _)

theorem not_gt8_pref_joinNl {ls : List (List Char)}
    (h : ∀ l ∈ ls, (∀ c ∈ l, c ≠ '\n') ∧ ¬ sevenGt <+: l) :
    ¬ gt8 <+: joinNl ls := by
  rcases ls with _ | ⟨m, ms⟩
  · exact not_pref_nil (by decide)
  · rcases ms with _ | ⟨m2, ms2⟩
    · intro hp
      exact (h m (by simp)).2 (pref_trans (by decide) hp)
    · rw [joinNl_cons_ne (by simp)]
      intro hp
      have := (noNl_pat_pref gt8_noNl m _).mp hp
      exact (h m (by simp)).2 (pref_trans (by decide) this)

theorem not_gt8_pref_sevenGt_tl {TL : List Char}
    (hTL : TL = [] ∨ ∃ tl, TL = '\n' :: tl) : ¬ gt8 <+: (sevenGt ++ TL) := by
  have hlen : ∀ w : List Char, sevenGt ≠ gt8 ++ w := by
    intro w hw
    have hl := congrArg List.length hw
    rw [List.length_append, show sevenGt.length = 7 from by decide,
      show gt8.length = 8 from by decide] at hl
    omega
  rcases hTL with rfl | ⟨tl, rfl⟩
  · rw [List.append_nil]
    rintro ⟨w, hw⟩
    exact hlen w hw.symm
  · intro hp
    rcases (noNl_pat_pref gt8_noNl sevenGt tl).mp hp with ⟨w, hw⟩
    exact hlen w hw.symm

/-- A joined document none of whose lines starts with the separator text
yields no match for the middle literal onward. -/
theorem matchBlock_joinNl_none {ls : List (List Char)}
    (h : ∀ l ∈ ls, (∀ c ∈ l, c ≠ '\n') ∧ ¬ sevenEq <+: l) :
    matchBlock (joinNl ls) = none := by
  induction ls with
  | nil => rfl
  | cons m ms ih =>
    rcases ms with _ | ⟨m2, ms2⟩
    · exact matchBlock_noNl_all (h m (by simp)).1
    · rw [joinNl_cons_ne (by simp)]
      rw [matchBlock_skip_line (h m (by simp)).1]
      rw [matchBlock_skip_nl (not_sepTail_pref_joinNl fun x hx => h x (by simp [hx]))]
      rw [ih fun x hx => h x (by simp [hx])]
      rfl

/-- A joined document none of whose lines starts with the end-marker text
yields no match for the end literal. -/
theorem matchEnd_joinNl_none {ls : List (List Char)}
    (h : ∀ l ∈ ls, (∀ c ∈ l, c ≠ '\n') ∧ ¬ sevenGt <+: l) :
    matchEnd (joinNl ls) = none := by
  induction ls with
  | nil => rfl
  | cons m ms ih =>
    rcases ms with _ | ⟨m2, ms2⟩
    · exact matchEnd_noNl_all (h m (by simp)).1
    · rw [joinNl_cons_ne (by simp)]
      rw [matchEnd_skip_line (h m (by simp)).1]
      rw [matchEnd_skip_nl (not_gt8_pref_joinNl fun x hx => h x (by simp [hx]))]
      exact ih fun x hx => h x (by simp [hx])

theorem matchEnd_nl_joinNl_none {ls : List (List Char)}
    (h : ∀ l ∈ ls, (∀ c ∈ l, c ≠ '\n') ∧ ¬ sevenGt <+: l) :
    matchEnd ('\n' :: joinNl ls) = none := by
  rw [matchEnd_skip_nl (not_gt8_pref_joinNl h)]
  exact matchEnd_joinNl_none h

/-- At the middle literal, when the rest of the pattern cannot match, the
lazy capture group backtracks past this separator candidate. -/
theorem matchBlock_here_fail {W : List Char} (hW : matchEnd W = none) :
    matchBlock ('\n' :: (sevenEq ++ '\n' :: W)) =
      (matchBlock (sevenEq ++ '\n' :: W)).map (fun p => ('\n' :: p.1, p.2)) := by
  rw [matchBlock]
  rw [if_pos ⟨W, by rw [sepPat_eq]; simp⟩]
  have hdrop : (('\n' : Char) :: (sevenEq ++ '\n' :: W)).drop 9 = W := by
    rw [show ('\n' : Char) :: (sevenEq ++ '\n' :: W) = sepPat ++ W by rw [sepPat_eq]; simp]
    rw [show (9 : Nat) = sepPat.length by decide]
    exact List.drop_left sepPat W
  rw [hdrop, hW]

/-- A separator line followed by text in which the rest of the pattern finds
nothing gives no match for the middle literal onward. -/
theorem matchBlock_sevenEq_line_none {rest : List (List Char)}
    (h : ∀ l ∈ rest, (∀ c ∈ l, c ≠ '\n') ∧ ¬ sevenEq <+: l) :
    matchBlock (sevenEq ++ '\n' :: joinNl rest) = none := by
  rw [matchBlock_skip_line sevenEq_noNl]
  rw [matchBlock_skip_nl (not_sepTail_pref_joinNl h)]
  rw [matchBlock_joinNl_none h]
  rfl

/-- The lazy capture group runs over the local-segment lines, reaches the
separator line, fails to complete the pattern there, backtracks, and finds no
other separator candidate: no match at all. -/
theorem matchBlock_joinNl_fail {loc : List (List Char)} (hne : loc ≠ [])
    (h : ∀ l ∈ loc, (∀ c ∈ l, c ≠ '\n') ∧ ¬ sevenEq <+: l)
    {W : List Char} (hW : matchEnd W = none)
    (hcont : matchBlock (sevenEq ++ '\n' :: W) = none) :
    matchBlock (joinNl loc ++ ('\n' :: (sevenEq ++ '\n' :: W))) = none := by
  induction loc with
  | nil => exact absurd rfl hne
  | cons l loc' ih =>
    rcases loc' with _ | ⟨m, ms⟩
    · have hjl : joinNl [l] = l := rfl
      rw [hjl, matchBlock_skip_line (h l (by simp)).1]
      rw [matchBlock_here_fail hW]
      rw [hcont]
      rfl
    · rw [joinNl_cons_ne (by simp), List.append_assoc, List.cons_append]
      rw [matchBlock_skip_line (h l (by simp)).1]
      have hnosep : ¬ (sevenEq ++ ['\n']) <+:
          (joinNl (m :: ms) ++ ('\n' :: (sevenEq ++ '\n' :: W))) := by
        intro hp
        have hmnl := (h m (by simp)).1
        have hseq : m = sevenEq := by
          rcases ms with _ | ⟨m2, ms2⟩
          · have hjm : joinNl [m] = m := rfl
            rw [hjm] at hp
            exact ((nl_pat_pref sevenEq_noNl hmnl [] _).mp (by simpa using hp)).1
          · rw [joinNl_cons_ne (by simp), List.append_assoc, List.cons_append] at hp
            exact ((nl_pat_pref sevenEq_noNl hmnl [] _).mp (by simpa using hp)).1
        exact (h m (by simp)).2 (hseq ▸ pref_refl _)
      rw [matchBlock_skip_nl hnosep]
      rw [ih (by simp) (fun x hx => h x (by simp [hx]))]
      rfl

/-- At the end literal with no non-newline character after it (the greedy
`[^\n]+` needs at least one), the inner lazy `.*?` backtracks past it. -/
theorem matchEnd_here_fail {TL : List Char}
    (hTL : TL = [] ∨ ∃ tl, TL = '\n' :: tl) :
    matchEnd ('\n' :: (gt8 ++ TL)) = matchEnd (gt8 ++ TL) := by
  rw [matchEnd]
  rw [if_pos ⟨TL, by rw [endPat_eq]; simp⟩]
  have hdrop : (('\n' : Char) :: (gt8 ++ TL)).drop 9 = TL := by
    rw [show ('\n' : Char) :: (gt8 ++ TL) = endPat ++ TL by rw [endPat_eq]; simp]
    rw [show (9 : Nat) = endPat.length by decide]
    exact List.drop_left endPat TL
  rw [hdrop]
  rcases hTL with rfl | ⟨tl, rfl⟩
  · rfl
  · rfl

/-- The inner lazy `.*?` runs over the incoming-segment lines and finds
nothing when the text after them yields nothing. -/
theorem matchEnd_passT {ls : List (List Char)} (hne : ls ≠ [])
    (h : ∀ l ∈ ls, (∀ c ∈ l, c ≠ '\n') ∧ ¬ sevenGt <+: l)
    {Y : List Char} (hY : matchEnd ('\n' :: Y) = none) :
    matchEnd (joinNlT ls ++ Y) = none := by
  induction ls with
  | nil => exact absurd rfl hne
  | cons m ms ih =>
    rcases ms with _ | ⟨m2, ms2⟩
    · rw [show joinNlT [m] ++ Y = m ++ '\n' :: Y by rw [joinNlT, joinNlT]; simp]
      rw [matchEnd_skip_line (h m (by simp)).1]
      exact hY
    · rw [show joinNlT (m :: m2 :: ms2) ++ Y = m ++ '\n' :: (joinNlT (m2 :: ms2) ++ Y) by
        rw [joinNlT]; simp]
      rw [matchEnd_skip_line (h m (by simp)).1]
      have hngt : ¬ gt8 <+: (joinNlT (m2 :: ms2) ++ Y) := by
        intro hp
        rw [show joinNlT (m2 :: ms2) ++ Y = m2 ++ '\n' :: (joinNlT ms2 ++ Y) by
          rw [joinNlT]; simp] at hp
        have := (noNl_pat_pref gt8_noNl m2 _).mp hp
        exact (h m2 (by simp)).2 (pref_trans (by decide) this)
      rw [matchEnd_skip_nl hngt]
      exact ih (by simp) (fun x hx => h x (by simp [hx]))

/-- An end-marker line whose literal `'>>>>>>> '` has lost its preceding
newline to the separator match cannot be matched, nor can anything after
it. -/
theorem matchEnd_endline_none {id : List Char} {post : List (List Char)}
    (hidnl : ∀ c ∈ id, c ≠ '\n')
    (hpost : ∀ l ∈ post, (∀ c ∈ l, c ≠ '\n') ∧ ¬ sevenGt <+: l) :
    matchEnd (joinNl ((gt8 ++ id) :: post)) = none := by
  have hnl : ∀ c ∈ gt8 ++ id, c ≠ '\n' := by
    intro c hc
    rcases List.mem_append.mp hc with h | h
    · exact gt8_noNl c h
    · exact hidnl c h
  rcases post with _ | ⟨p, ps⟩
  · exact matchEnd_noNl_all hnl
  · rw [joinNl_cons_ne (by simp), matchEnd_skip_line hnl]
    exact matchEnd_nl_joinNl_none hpost

/-- The substitution scan passes over any newline-terminated line shorter
than the start-marker text: the opening literal cannot match anywhere in
it. -/
theorem resolveHead_short_line {l : List Char} (hl : ∀ c ∈ l, c ≠ '\n')
    (hlen : l.length < 12) (tail : List Char) :
    resolveHead (l ++ '\n' :: tail) = l ++ '\n' :: resolveHead tail := by
  induction l with
  | nil =>
    simp only [List.nil_append]
    exact resolveHead_skip (not_pref_of_head (a := '<') (b := '\n') (by decide) rfl (by decide))
  | cons c l' ih =>
    have hl' : ∀ c ∈ l', c ≠ '\n' := fun x hx => hl x (by simp [hx])
    have hnp : ¬ startPat <+: ((c :: l') ++ '\n' :: tail) := by
      rw [startPat_eq]
      intro hp
      have heq := (nl_pat_pref hdMark_noNl hl [] tail).mp (by simpa using hp)
      have hle := congrArg List.length heq.1
      rw [show hdMark.length = 12 from by decide] at hle
      simp only [List.length_cons] at hle hlen
      omega
    rw [List.cons_append]
    rw [resolveHead_skip (by simpa using hnp)]
    rw [ih hl' (by simp only [List.length_cons] at hlen; omega)]
    rfl

/-- At a start marker whose following text admits no match for the rest of
the pattern, `re.sub` moves on and the whole marker line stays in place. -/
theorem resolveHead_hd_fail {T : List Char} (hmb : matchBlock T = none) :
    resolveHead (startPat ++ T) = startPat ++ resolveHead T := by
  have h1 : startPat ++ T = '<' :: ("<<<<<< HEAD".data ++ '\n' :: T) := by
    rw [show startPat = '<' :: ("<<<<<< HEAD".data ++ ['\n']) from by decide]
    simp
  have hpf : startPat <+: ('<' :: ("<<<<<< HEAD".data ++ '\n' :: T)) := ⟨T, h1.symm⟩
  have hmb' : matchBlock (('<' :: ("<<<<<< HEAD".data ++ '\n' :: T)).drop 13) = none := by
    rw [← h1, show (13 : Nat) = startPat.length from by decide, List.drop_left]
    exact hmb
  rw [h1, resolveHead_fail hpf hmb']
  rw [@resolveHead_short_line ("<<<<<< HEAD".data) (by decide) (by decide) T]
  rw [show startPat = '<' :: ("<<<<<< HEAD".data ++ ['\n']) from by decide]
  simp

/-- A document made of clean lines around a start-marker line whose following
text admits no match is returned unchanged by the Marker-Block Eraser. -/
theorem resolveHead_failed_block {pre tailLines : List (List Char)}
    (hpre : ∀ l ∈ pre, (∀ c ∈ l, c ≠ '\n') ∧ ¬ hdMark <:+ l)
    (htl : ∀ l ∈ tailLines, (∀ c ∈ l, c ≠ '\n') ∧ ¬ hdMark <:+ l)
    (htlne : tailLines ≠ [])
    (hmb : matchBlock (joinNl tailLines) = none) :
    resolveHead (joinNl (pre ++ hdMark :: tailLines))
      = joinNl (pre ++ hdMark :: tailLines) := by
  have hdoc : joinNl (pre ++ hdMark :: tailLines)
      = joinNlT pre ++ (startPat ++ joinNl tailLines) := by
    rw [joinNl_append (by simp), joinNl_cons_ne htlne, startPat_eq]
    simp
  rw [hdoc, resolveHead_passT hpre, resolveHead_hd_fail hmb, resolveHead_joinNl_id htl]

theorem joinNl_sep_decomp {loc rest : List (List Char)} (hloc : loc ≠ [])
    (hrest : rest ≠ []) :
    joinNl (loc ++ sevenEq :: rest)
      = joinNl loc ++ ('\n' :: (sevenEq ++ '\n' :: joinNl rest)) := by
  rw [joinNl_append (by simp), joinNlT_eq hloc, joinNl_cons_ne hrest]
  simp

/-- Counterexample to claim C6 as stated: this document's fifth line is a
start marker whose following lines (`R`, the end-marker line) contain no
separator, yet the Marker-Block Eraser does not leave it byte-for-byte
unchanged — the enclosing match's lazy `.*?` swallows it and the output is
just `P`. -/
theorem eraser_dangling_marker_consumed :
    splitNl ("<<<<<<< HEAD\nP\n=======\nQ\n<<<<<<< HEAD\nR\n>>>>>>> id".data)
      = [hdMark, "P".data, sevenEq, "Q".data, hdMark, "R".data, gt8 ++ "id".data]
    ∧ resolveHead ("<<<<<<< HEAD\nP\n=======\nQ\n<<<<<<< HEAD\nR\n>>>>>>> id".data)
      = "P".data
    ∧ "P".data ≠ "<<<<<<< HEAD\nP\n=======\nQ\n<<<<<<< HEAD\nR\n>>>>>>> id".data :=
  ⟨by decide, by decide, by decide⟩

/-- Counterexample to claim C10 as stated: this document's conflict block has
zero lines between the start marker and the (first) separator line, yet it is
not left unchanged — the lazy capture group extends past that separator to a
later one, and the whole document is rewritten to `=======\nA`. -/
theorem eraser_zero_local_reparsed :
    splitNl ("<<<<<<< HEAD\n=======\nA\n=======\nB\n>>>>>>> id".data)
      = [hdMark, sevenEq, "A".data, sevenEq, "B".data, gt8 ++ "id".data]
    ∧ resolveHead ("<<<<<<< HEAD\n=======\nA\n=======\nB\n>>>>>>> id".data)
      = "=======\nA".data
    ∧ "=======\nA".data ≠ "<<<<<<< HEAD\n=======\nA\n=======\nB\n>>>>>>> id".data :=
  ⟨by decide, by decide, by decide⟩

/-- Claim C10 (amended): the regex of `resolve_head.py` needs one (possibly
empty) line in each segment and an end marker `'>>>>>>> '` followed by at
least one non-newline character.  In a document whose other lines carry no
marker text, a candidate block with no line between the start marker and the
separator, or none between the separator and the end marker, or whose end
marker is a bare `'>>>>>>>'`, or `'>>>>>>> '` with nothing after it, is not
matched and the document is unchanged; with single empty segment lines and a
one-character identifier the block is matched and replaced by its (empty)
local segment. -/
theorem eraser_malformed_blocks_unchanged
    (pre loc inc post : List (List Char)) (id : List Char)
    (hpre : ∀ l ∈ pre, cleanLine l) (hloc : ∀ l ∈ loc, cleanLine l)
    (hinc : ∀ l ∈ inc, cleanLine l) (hpost : ∀ l ∈ post, cleanLine l)
    (hlocne : loc ≠ []) (hincne : inc ≠ [])
    (hidnl : ∀ c ∈ id, c ≠ '\n') (hidsuf : ¬ hdMark <:+ (gt8 ++ id)) :
    resolveHead (joinNl (pre ++ hdMark :: sevenEq :: (inc ++ (gt8 ++ id) :: post)))
      = joinNl (pre ++ hdMark :: sevenEq :: (inc ++ (gt8 ++ id) :: post))
    ∧ resolveHead (joinNl (pre ++ hdMark :: (loc ++ sevenEq :: (gt8 ++ id) :: post)))
      = joinNl (pre ++ hdMark :: (loc ++ sevenEq :: (gt8 ++ id) :: post))
    ∧ resolveHead (joinNl (pre ++ hdMark :: (loc ++ sevenEq :: (inc ++ sevenGt :: post))))
      = joinNl (pre ++ hdMark :: (loc ++ sevenEq :: (inc ++ sevenGt :: post)))
    ∧ resolveHead (joinNl (pre ++ hdMark :: (loc ++ sevenEq :: (inc ++ gt8 :: post))))
      = joinNl (pre ++ hdMark :: (loc ++ sevenEq :: (inc ++ gt8 :: post)))
    ∧ resolveHead ("<<<<<<< HEAD\n\n=======\n\n>>>>>>> x".data) = "".data := by
  have hpre' : ∀ l ∈ pre, (∀ c ∈ l, c ≠ '\n') ∧ ¬ hdMark <:+ l :=
    fun l hl => ⟨(hpre l hl).1, (hpre l hl).2.2.2.2⟩
  have hloc' : ∀ l ∈ loc, (∀ c ∈ l, c ≠ '\n') ∧ ¬ hdMark <:+ l :=
    fun l hl => ⟨(hloc l hl).1, (hloc l hl).2.2.2.2⟩
  have hinc' : ∀ l ∈ inc, (∀ c ∈ l, c ≠ '\n') ∧ ¬ hdMark <:+ l :=
    fun l hl => ⟨(hinc l hl).1, (hinc l hl).2.2.2.2⟩
  have hpost' : ∀ l ∈ post, (∀ c ∈ l, c ≠ '\n') ∧ ¬ hdMark <:+ l :=
    fun l hl => ⟨(hpost l hl).1, (hpost l hl).2.2.2.2⟩
  have hlocE : ∀ l ∈ loc, (∀ c ∈ l, c ≠ '\n') ∧ ¬ sevenEq <+: l :=
    fun l hl => ⟨(hloc l hl).1, (hloc l hl).2.2.1⟩
  have hincE : ∀ l ∈ inc, (∀ c ∈ l, c ≠ '\n') ∧ ¬ sevenEq <+: l :=
    fun l hl => ⟨(hinc l hl).1, (hinc l hl).2.2.1⟩
  have hincG : ∀ l ∈ inc, (∀ c ∈ l, c ≠ '\n') ∧ ¬ sevenGt <+: l :=
    fun l hl => ⟨(hinc l hl).1, (hinc l hl).2.2.2.1⟩
  have hpostE : ∀ l ∈ post, (∀ c ∈ l, c ≠ '\n') ∧ ¬ sevenEq <+: l :=
    fun l hl => ⟨(hpost l hl).1, (hpost l hl).2.2.1⟩
  have hpostG : ∀ l ∈ post, (∀ c ∈ l, c ≠ '\n') ∧ ¬ sevenGt <+: l :=
    fun l hl => ⟨(hpost l hl).1, (hpost l hl).2.2.2.1⟩
  have hendnl : ∀ c ∈ gt8 ++ id, c ≠ '\n' := by
    intro c hc
    rcases List.mem_append.mp hc with h | h
    · exact gt8_noNl c h
    · exact hidnl c h
  have hendE : ¬ sevenEq <+: (gt8 ++ id) := not_eq_pref_gtline id
  refine ⟨?_, ?_, ?_, ?_, by decide⟩
  · refine resolveHead_failed_block hpre' ?_ (by simp) ?_
    · intro l hl
      simp only [List.mem_cons, List.mem_append] at hl
      rcases hl with rfl | h | rfl | h
      · exact ⟨sevenEq_noNl, by decide⟩
      · exact hinc' l h
      · exact ⟨hendnl, hidsuf⟩
      · exact hpost' l h
    · rw [joinNl_cons_ne (by simp)]
      apply matchBlock_sevenEq_line_none
      intro l hl
      simp only [List.mem_cons, List.mem_append] at hl
      rcases hl with h | rfl | h
      · exact hincE l h
      · exact ⟨hendnl, hendE⟩
      · exact hpostE l h
  · refine resolveHead_failed_block hpre' ?_ (by simp) ?_
    · intro l hl
      simp only [List.mem_cons, List.mem_append] at hl
      rcases hl with h | rfl | rfl | h
      · exact hloc' l h
      · exact ⟨sevenEq_noNl, by decide⟩
      · exact ⟨hendnl, hidsuf⟩
      · exact hpost' l h
    · rw [joinNl_sep_decomp hlocne (by simp)]
      apply matchBlock_joinNl_fail hlocne hlocE
      · exact matchEnd_endline_none hidnl hpostG
      · apply matchBlock_sevenEq_line_none
        intro l hl
        simp only [List.mem_cons] at hl
        rcases hl with rfl | h
        · exact ⟨hendnl, hendE⟩
        · exact hpostE l h
  · refine resolveHead_failed_block hpre' ?_ (by simp) ?_
    · intro l hl
      simp only [List.mem_cons, List.mem_append] at hl
      rcases hl with h | rfl | h | rfl | h
      · exact hloc' l h
      · exact ⟨sevenEq_noNl, by decide⟩
      · exact hinc' l h
      · exact ⟨sevenGt_noNl, by decide⟩
      · exact hpost' l h
    · rw [joinNl_sep_decomp hlocne (by simp)]
      apply matchBlock_joinNl_fail hlocne hlocE
      · rw [joinNl_append (by simp)]
        apply matchEnd_passT hincne hincG
        rcases post with _ | ⟨p, ps⟩
        · have hjs : joinNl [sevenGt] = sevenGt := rfl
          rw [hjs]
          have hng : ¬ gt8 <+: sevenGt := by
            intro hp
            have hx := not_gt8_pref_sevenGt_tl (Or.inl rfl)
            rw [List.append_nil] at hx
            exact hx hp
          rw [matchEnd_skip_nl hng]
          exact matchEnd_noNl_all sevenGt_noNl
        · rw [joinNl_cons_ne (by simp)]
          rw [matchEnd_skip_nl (not_gt8_pref_sevenGt_tl (Or.inr ⟨joinNl (p :: ps), rfl⟩))]
          rw [matchEnd_skip_line sevenGt_noNl]
          exact matchEnd_nl_joinNl_none hpostG
      · apply matchBlock_sevenEq_line_none
        intro l hl
        simp only [List.mem_cons, List.mem_append] at hl
        rcases hl with h | rfl | h
        · exact hincE l h
        · exact ⟨sevenGt_noNl, by decide⟩
        · exact hpostE l h
  · refine resolveHead_failed_block hpre' ?_ (by simp) ?_
    · intro l hl
      simp only [List.mem_cons, List.mem_append] at hl
      rcases hl with h | rfl | h | rfl | h
      · exact hloc' l h
      · exact ⟨sevenEq_noNl, by decide⟩
      · exact hinc' l h
      · exact ⟨gt8_noNl, by decide⟩
      · exact hpost' l h
    · rw [joinNl_sep_decomp hlocne (by simp)]
      apply matchBlock_joinNl_fail hlocne hlocE
      · rw [joinNl_append (by simp)]
        apply matchEnd_passT hincne hincG
        rcases post with _ | ⟨p, ps⟩
        · have hjs : joinNl [gt8] = gt8 := rfl
          rw [hjs]
          have hf := matchEnd_here_fail (Or.inl rfl)
          rw [List.append_nil] at hf
          rw [hf]
          exact matchEnd_noNl_all gt8_noNl
        · rw [joinNl_cons_ne (by simp)]
          rw [matchEnd_here_fail (Or.inr ⟨joinNl (p :: ps), rfl⟩)]
          rw [matchEnd_skip_line gt8_noNl]
          exact matchEnd_nl_joinNl_none hpostG
      · apply matchBlock_sevenEq_line_none
        intro l hl
        simp only [List.mem_cons, List.mem_append] at hl
        rcases hl with h | rfl | h
        · exact hincE l h
        · exact ⟨gt8_noNl, by decide⟩
        · exact hpostE l h

theorem eraser_malformed_blocks_unchanged_witness :
    resolveHead ("p\n<<<<<<< HEAD\n=======\ndrop\n>>>>>>> abc\nq".data)
      = "p\n<<<<<<< HEAD\n=======\ndrop\n>>>>>>> abc\nq".data
    ∧ resolveHead ("p\n<<<<<<< HEAD\nkeep\n=======\n>>>>>>> abc\nq".data)
      = "p\n<<<<<<< HEAD\nkeep\n=======\n>>>>>>> abc\nq".data
    ∧ resolveHead ("p\n<<<<<<< HEAD\nkeep\n=======\ndrop\n>>>>>>>\nq".data)
      = "p\n<<<<<<< HEAD\nkeep\n=======\ndrop\n>>>>>>>\nq".data
    ∧ resolveHead ("p\n<<<<<<< HEAD\nkeep\n=======\ndrop\n>>>>>>> \nq".data)
      = "p\n<<<<<<< HEAD\nkeep\n=======\ndrop\n>>>>>>> \nq".data
    ∧ resolveHead ("<<<<<<< HEAD\n\n=======\n\n>>>>>>> x".data) = "".data := by
  have h := eraser_malformed_blocks_unchanged ["p".data] ["keep".data] ["drop".data]
    ["q".data] ("abc".data) (by decide) (by decide) (by decide) (by decide)
    (by decide) (by decide) (by decide) (by decide)
  obtain ⟨h1, h2, h3, h4, h5⟩ := h
  have e1 : joinNl (["p".data] ++ hdMark :: sevenEq ::
      (["drop".data] ++ (gt8 ++ "abc".data) :: ["q".data]))
      = "p\n<<<<<<< HEAD\n=======\ndrop\n>>>>>>> abc\nq".data := by decide
  have e2 : joinNl (["p".data] ++ hdMark :: (["keep".data] ++ sevenEq ::
      (gt8 ++ "abc".data) :: ["q".data]))
      = "p\n<<<<<<< HEAD\nkeep\n=======\n>>>>>>> abc\nq".data := by decide
  have e3 : joinNl (["p".data] ++ hdMark :: (["keep".data] ++ sevenEq ::
      (["drop".data] ++ sevenGt :: ["q".data])))
      = "p\n<<<<<<< HEAD\nkeep\n=======\ndrop\n>>>>>>>\nq".data := by decide
  have e4 : joinNl (["p".data] ++ hdMark :: (["keep".data] ++ sevenEq ::
      (["drop".data] ++ gt8 :: ["q".data])))
      = "p\n<<<<<<< HEAD\nkeep\n=======\ndrop\n>>>>>>> \nq".data := by decide
  rw [e1] at h1
  rw [e2] at h2
  rw [e3] at h3
  rw [e4] at h4
  exact ⟨h1, h2, h3, h4, h5⟩
